import Mathlib

/-!
Formal model of the `FileHandler` file-access layer (fileHandler.js):
a per-path lock registry (`fileLocks`) plus the safe file operations
built on top of it (read, write, append, stat, copy, delete, exists,
JSON read/write).  Paths are canonicalized with Node's `path.resolve`,
modelled here as resolution against a fixed working directory followed
by component normalization.
-/

/- ### Canonical paths: model of `path.resolve` -/

/-- Characters of the process working directory used when resolving a
relative path (models `process.cwd()`). -/
def cwdChars : List Char := ['/', 'a', 'p', 'p']

/-- Split a character list on `'/'` into path components. -/
def splitSlash : List Char → List (List Char)
  | [] => [[]]
  | c :: rest =>
    if c = '/' then [] :: splitSlash rest
    else
      match splitSlash rest with
      | [] => [[c]]
      | p :: ps => (c :: p) :: ps

/-- Normalize a component list: drop empty and `.` components, let `..`
remove the previous component (at the root it is dropped, as for an
absolute path). -/
def normComps : List (List Char) → List (List Char) → List (List Char)
  | acc, [] => acc
  | acc, comp :: rest =>
    if comp = [] ∨ comp = ['.'] then normComps acc rest
    else if comp = ['.', '.'] then normComps acc.dropLast rest
    else normComps (acc ++ [comp]) rest

/-- Render a normalized component list as an absolute path. -/
def renderAbs (comps : List (List Char)) : List Char :=
  if comps = [] then ['/']
  else comps.foldl (fun acc c => acc ++ '/' :: c) []

/-- Resolve a character-level path to an absolute normalized form: prepend
the working directory when the path is relative, then normalize. -/
def resolveChars (cs : List Char) : List Char :=
  renderAbs (normComps [] (splitSlash
    (if cs.head? = some '/' then cs else cwdChars ++ '/' :: cs)))

/-- Model of `path.resolve(filePath)`: resolve against the working
directory and normalize.  This is the canonicalization used as the lock
key by `acquireLock` and `releaseLock`. -/
def pathResolve (p : String) : String := String.mk (resolveChars p.data)

/-- Every piece produced by `splitSlash` is slash-free. -/
theorem mem_splitSlash_no_slash {cs : List Char} {p : List Char}
    (hp : p ∈ splitSlash cs) : '/' ∉ p := by
  induction cs generalizing p with
  | nil =>
    simp only [splitSlash, List.mem_singleton] at hp
    subst hp; simp
  | cons c rest ih =>
    simp only [splitSlash] at hp
    by_cases hc : c = '/'
    · simp only [hc, if_pos rfl] at hp
      rcases List.mem_cons.mp hp with h | h
      · subst h; simp
      · exact ih h
    · simp only [if_neg hc] at hp
      rcases hsp : splitSlash rest with _ | ⟨q, qs⟩
      · rw [hsp] at hp
        simp only [List.mem_singleton] at hp
        subst hp
        intro hmem
        rcases List.mem_singleton.mp hmem with h
        exact hc h.symm
      · rw [hsp] at hp
        rcases List.mem_cons.mp hp with h | h
        · subst h
          intro hmem
          rcases List.mem_cons.mp hmem with h | h
          · exact hc h.symm
          · exact ih (by rw [hsp]; exact List.mem_cons_self _ _) h
        · exact ih (by rw [hsp]; exact List.mem_cons_of_mem _ h)

/-- A slash-free character list splits to itself. -/
theorem splitSlash_of_no_slash {c : List Char} (h : '/' ∉ c) :
    splitSlash c = [c] := by
  induction c with
  | nil => rfl
  | cons x xs ih =>
    have hx : x ≠ '/' := fun hx => h (by simp [hx])
    have hxs : '/' ∉ xs := fun hm => h (List.mem_cons_of_mem _ hm)
    simp only [splitSlash, if_neg hx, ih hxs]

/-- Splitting a slash-free piece followed by a slash peels the piece. -/
theorem splitSlash_append_slash {c : List Char} (h : '/' ∉ c) (ys : List Char) :
    splitSlash (c ++ '/' :: ys) = c :: splitSlash ys := by
  induction c with
  | nil => simp [splitSlash]
  | cons x xs ih =>
    have hx : x ≠ '/' := fun hx => h (by simp [hx])
    have hxs : '/' ∉ xs := fun hm => h (List.mem_cons_of_mem _ hm)
    have htail := ih hxs
    simp only [List.cons_append, splitSlash, if_neg hx, List.append_eq, htail]

theorem foldl_render_eq (comps : List (List Char)) (a : List Char) :
    comps.foldl (fun acc c => acc ++ '/' :: c) a =
      a ++ comps.flatMap (fun c => '/' :: c) := by
  induction comps generalizing a with
  | nil => simp
  | cons c cs ih => simp [ih, List.append_assoc]

theorem renderAbs_eq_flatMap {comps : List (List Char)} (h : comps ≠ []) :
    renderAbs comps = comps.flatMap (fun c => '/' :: c) := by
  simp only [renderAbs, if_neg h]
  simpa using foldl_render_eq comps []

theorem splitSlash_cons_slash (rest : List Char) :
    splitSlash ('/' :: rest) = [] :: splitSlash rest := by
  simp [splitSlash]

/-- Splitting the rendering of a nonempty list of slash-free components
recovers the components, preceded by the empty piece before the leading
slash. -/
theorem splitSlash_renderAbs {comps : List (List Char)} (h : comps ≠ [])
    (hns : ∀ c ∈ comps, '/' ∉ c) :
    splitSlash (renderAbs comps) = [] :: comps := by
  rw [renderAbs_eq_flatMap h]
  clear h
  induction comps with
  | nil => simp [splitSlash]
  | cons c cs ih =>
    have hc : '/' ∉ c := hns c (List.mem_cons_self _ _)
    have hcs : ∀ x ∈ cs, '/' ∉ x := fun x hx => hns x (List.mem_cons_of_mem _ hx)
    rcases cs with _ | ⟨d, ds⟩
    · simp only [List.flatMap_cons, List.flatMap_nil, List.append_nil]
      show splitSlash ('/' :: c) = [[], c]
      rw [splitSlash_cons_slash, splitSlash_of_no_slash hc]
    · have ihcs := ih hcs
      simp only [List.flatMap_cons, List.cons_append] at ihcs ⊢
      rw [splitSlash_cons_slash, splitSlash_append_slash hc]
      rw [splitSlash_cons_slash] at ihcs
      injection ihcs with h1 h2
      rw [h2]

/-- A component of a canonical path: nonempty, not `.` or `..`, slash-free. -/
def CleanComp (c : List Char) : Prop :=
  c ≠ [] ∧ c ≠ ['.'] ∧ c ≠ ['.', '.'] ∧ '/' ∉ c

theorem normComps_clean {acc rest : List (List Char)}
    (hacc : ∀ c ∈ acc, CleanComp c) (hrest : ∀ c ∈ rest, '/' ∉ c) :
    ∀ c ∈ normComps acc rest, CleanComp c := by
  induction rest generalizing acc with
  | nil => simpa [normComps] using hacc
  | cons comp rs ih =>
    have hcomp : '/' ∉ comp := hrest comp (List.mem_cons_self _ _)
    have hrs : ∀ c ∈ rs, '/' ∉ c := fun c hc => hrest c (List.mem_cons_of_mem _ hc)
    simp only [normComps]
    by_cases h1 : comp = [] ∨ comp = ['.']
    · rw [if_pos h1]; exact ih hacc hrs
    · rw [if_neg h1]
      by_cases h2 : comp = ['.', '.']
      · rw [if_pos h2]
        refine ih (fun c hc => hacc c ?_) hrs
        exact (List.dropLast_sublist acc).subset hc
      · rw [if_neg h2]
        refine ih (fun c hc => ?_) hrs
        rcases List.mem_append.mp hc with h | h
        · exact hacc c h
        · rcases List.mem_singleton.mp h with rfl
          push_neg at h1
          exact ⟨h1.1, h1.2, h2, hcomp⟩

theorem normComps_clean_id {acc rest : List (List Char)}
    (hrest : ∀ c ∈ rest, CleanComp c) :
    normComps acc rest = acc ++ rest := by
  induction rest generalizing acc with
  | nil => simp [normComps]
  | cons comp rs ih =>
    have hcomp := hrest comp (List.mem_cons_self _ _)
    have hrs : ∀ c ∈ rs, CleanComp c := fun c hc => hrest c (List.mem_cons_of_mem _ hc)
    simp only [normComps]
    rw [if_neg (by push_neg; exact ⟨hcomp.1, hcomp.2.1⟩), if_neg hcomp.2.2.1, ih hrs]
    simp

theorem clean_resolveChars (cs : List Char) :
    ∀ c ∈ normComps [] (splitSlash (if cs.head? = some '/' then cs
      else cwdChars ++ '/' :: cs)), CleanComp c :=
  normComps_clean (by simp) (fun _ hc => mem_splitSlash_no_slash hc)

theorem resolveChars_head (cs : List Char) :
    (resolveChars cs).head? = some '/' := by
  unfold resolveChars
  rcases h : normComps [] (splitSlash (if cs.head? = some '/' then cs
      else cwdChars ++ '/' :: cs)) with _ | ⟨c, cos⟩
  · simp [renderAbs]
  · rw [renderAbs_eq_flatMap (by simp)]
    simp

/-- Resolution is idempotent: resolving an already-resolved path changes
nothing.  This is what makes releasing via the canonical path returned by
`acquireLock` remove exactly the entry that acquire inserted. -/
theorem resolveChars_idem (cs : List Char) :
    resolveChars (resolveChars cs) = resolveChars cs := by
  have hclean := clean_resolveChars cs
  have hhead := resolveChars_head cs
  rcases hcomps : normComps [] (splitSlash (if cs.head? = some '/' then cs
      else cwdChars ++ '/' :: cs)) with _ | ⟨c, cos⟩
  · have hres : resolveChars cs = ['/'] := by
      unfold resolveChars
      rw [hcomps]; simp [renderAbs]
    rw [hres]
    decide
  · rw [hcomps] at hclean
    have hne : c :: cos ≠ ([] : List (List Char)) := by simp
    have hres : resolveChars cs = renderAbs (c :: cos) := by
      unfold resolveChars
      rw [hcomps]
    rw [hres]
    have hns : ∀ x ∈ c :: cos, '/' ∉ x := fun x hx => (hclean x hx).2.2.2
    unfold resolveChars
    have habs : (renderAbs (c :: cos)).head? = some '/' := by rw [← hres]; exact hhead
    rw [if_pos habs, splitSlash_renderAbs hne hns]
    have : normComps [] ([] :: c :: cos) = normComps [] (c :: cos) := by
      simp [normComps]
    rw [this, normComps_clean_id hclean]
    rfl

theorem pathResolve_idem (p : String) :
    pathResolve (pathResolve p) = pathResolve p := by
  unfold pathResolve
  rw [show (String.mk (resolveChars p.data)).data = resolveChars p.data from rfl,
    resolveChars_idem]

/- ### Lock registry and safe file operations (class `FileHandler`) -/

/-- Lock-table event, recorded whenever `acquireLock` inserts an entry or
`releaseLock` deletes one. -/
inductive LEvent where
  | acq (key : String)
  | rel (key : String)
deriving DecidableEq

/-- State threaded through the safe file operations: the `fileLocks` table
(set of held canonical paths, modelling the `Map` keys), the file store
(association of canonical path to content, modelling the filesystem), and
the trace of lock events. -/
structure RunState where
  locks : Finset String
  files : List (String × String)
  events : List LEvent
deriving DecidableEq

/-- Store a file: one binding per canonical path (models writing/truncating). -/
def fsSet (files : List (String × String)) (k data : String) :
    List (String × String) :=
  (k, data) :: files.filter (fun e => e.1 ≠ k)

/-- Remove a file from the store (models `fs.unlink`). -/
def fsDelete (files : List (String × String)) (k : String) :
    List (String × String) :=
  files.filter (fun e => e.1 ≠ k)

/-- Message used when an underlying filesystem call fails on a missing file. -/
def enoentMsg : String := "ENOENT: no such file or directory"

/-- Model of `FileHandler.acquireLock`: canonicalize, then check-and-insert
with no suspension point in between.  The real method polls every 10ms
while the entry is present; in this single-operation model that wait never
ends, so a held entry yields `none` (the operation does not complete). -/
def acquireLock (st : RunState) (filePath : String) :
    Option (String × RunState) :=
  if pathResolve filePath ∈ st.locks then none
  else some (pathResolve filePath,
    { st with locks := insert (pathResolve filePath) st.locks,
              events := st.events ++ [LEvent.acq (pathResolve filePath)] })

/-- Model of `FileHandler.releaseLock`: canonicalize and delete the entry
unconditionally (`Map.delete`); a total function, it never raises. -/
def releaseLock (st : RunState) (filePath : String) : RunState :=
  { st with locks := st.locks.erase (pathResolve filePath),
            events := st.events ++ [LEvent.rel (pathResolve filePath)] }

/-- Typed failures of the safe file operations.  In the source every throw
site builds a plain `Error` whose message template identifies the failure
mode; each constructor here records one throw site with its path and the
underlying cause's message. -/
inductive FHError where
  | readError (path msg : String)
  | writeError (path msg : String)
  | appendError (path msg : String)
  | parseError (path msg : String)
  | writeJSONError (path msg : String)
  | statError (path msg : String)
  | copyError (src dst msg : String)
  | deleteError (path msg : String)
deriving DecidableEq

deriving instance DecidableEq for Except

/-- Message carried by each `FHError`, following the source's templates. -/
def FHError.message : FHError → String
  | .readError p m => "Failed to read file " ++ p ++ ": " ++ m
  | .writeError p m => "Failed to write file " ++ p ++ ": " ++ m
  | .appendError p m => "Failed to append to file " ++ p ++ ": " ++ m
  | .parseError p m => "Failed to parse JSON from " ++ p ++ ": " ++ m
  | .writeJSONError p m => "Failed to write JSON to " ++ p ++ ": " ++ m
  | .statError p m => "Failed to get stats for " ++ p ++ ": " ++ m
  | .copyError s d m => "Failed to copy " ++ s ++ " to " ++ d ++ ": " ++ m
  | .deleteError p m => "Failed to delete file " ++ p ++ ": " ++ m

/-- Model of `FileHandler.readFile`: acquire the lock, read the locked
path (failing when the file is absent), wrap the failure, and release in
the `finally` block on both exit paths. -/
def readFile (st : RunState) (filePath : String) :
    Option (Except FHError String × RunState) :=
  (acquireLock st filePath).map fun r =>
    match List.lookup r.1 r.2.files with
    | some data => (Except.ok data, releaseLock r.2 r.1)
    | none => (Except.error (FHError.readError filePath enoentMsg),
               releaseLock r.2 r.1)

/-- Model of `FileHandler.writeFile`: acquire, write (with `fsw` the
outcome of the underlying `fs.writeFile` call), wrap a failure, release
in `finally`. -/
def writeFile (st : RunState) (filePath data : String)
    (fsw : Except String Unit) : Option (Except FHError Bool × RunState) :=
  (acquireLock st filePath).map fun r =>
    match fsw with
    | Except.ok _ =>
        (Except.ok true, releaseLock { r.2 with files := fsSet r.2.files r.1 data } r.1)
    | Except.error m =>
        (Except.error (FHError.writeError filePath m), releaseLock r.2 r.1)

/-- Model of `FileHandler.appendFile`: like write, but appends to the
existing content (creating the file when absent). -/
def appendFile (st : RunState) (filePath data : String)
    (fsa : Except String Unit) : Option (Except FHError Bool × RunState) :=
  (acquireLock st filePath).map fun r =>
    match fsa with
    | Except.ok _ =>
        (Except.ok true,
         releaseLock
           { r.2 with files := fsSet r.2.files r.1 ((List.lookup r.1 r.2.files).getD "" ++ data) }
           r.1)
    | Except.error m =>
        (Except.error (FHError.appendError filePath m), releaseLock r.2 r.1)

/-- Model of `FileHandler.getStats`: acquire, stat the locked path (its
size here stands for the metadata), wrap, release in `finally`. -/
def getStats (st : RunState) (filePath : String) :
    Option (Except FHError Nat × RunState) :=
  (acquireLock st filePath).map fun r =>
    match List.lookup r.1 r.2.files with
    | some data => (Except.ok data.length, releaseLock r.2 r.1)
    | none => (Except.error (FHError.statError filePath enoentMsg),
               releaseLock r.2 r.1)

/-- Model of `FileHandler.deleteFile`: acquire, unlink (failing when the
file is absent), wrap, release in `finally`. -/
def deleteFile (st : RunState) (filePath : String) :
    Option (Except FHError Bool × RunState) :=
  (acquireLock st filePath).map fun r =>
    match List.lookup r.1 r.2.files with
    | some _ => (Except.ok true,
        releaseLock { r.2 with files := fsDelete r.2.files r.1 } r.1)
    | none => (Except.error (FHError.deleteError filePath enoentMsg),
               releaseLock r.2 r.1)

/-- Model of `FileHandler.copyFile`: acquire the source lock, then the
destination lock, copy (`fsc` injects any extra underlying failure; a
missing source fails by itself), wrap, then release source and
destination in the `finally` block.  When both arguments canonicalize to
the same key the second acquire waits on the entry the call itself holds,
so the operation never completes (`none`). -/
def copyFile (st : RunState) (source destination : String)
    (fsc : Except String Unit) : Option (Except FHError Bool × RunState) :=
  (acquireLock st source).bind fun rs =>
  (acquireLock rs.2 destination).map fun rd =>
    match List.lookup rs.1 rd.2.files, fsc with
    | some data, Except.ok _ =>
        (Except.ok true,
         releaseLock (releaseLock
           { rd.2 with files := fsSet rd.2.files rd.1 data } rs.1) rd.1)
    | some _, Except.error m =>
        (Except.error (FHError.copyError source destination m),
         releaseLock (releaseLock rd.2 rs.1) rd.1)
    | none, _ =>
        (Except.error (FHError.copyError source destination enoentMsg),
         releaseLock (releaseLock rd.2 rs.1) rd.1)

/-- Model of `FileHandler.exists` (named `existsFile` here): probe the
path with `fs.access` (outcome `probe`), return `true` on success and
`false` on any failure; the lock table is neither read nor mutated. -/
def existsFile (st : RunState) (filePath : String)
    (probe : Except String Unit) : Bool × RunState :=
  match probe with
  | Except.ok _ => (true, st)
  | Except.error _ => (false, st)

/- ### Basic lock lemmas -/

theorem acquireLock_some {st : RunState} {p k : String} {st1 : RunState}
    (h : acquireLock st p = some (k, st1)) :
    k = pathResolve p ∧ pathResolve p ∉ st.locks ∧
      st1 = { st with locks := insert (pathResolve p) st.locks,
                      events := st.events ++ [LEvent.acq (pathResolve p)] } := by
  by_cases hmem : pathResolve p ∈ st.locks
  · rw [acquireLock, if_pos hmem] at h
    exact absurd h (by simp)
  · rw [acquireLock, if_neg hmem] at h
    simp only [Option.some.injEq, Prod.mk.injEq] at h
    exact ⟨h.1.symm, hmem, h.2.symm⟩

theorem releaseLock_locks (st : RunState) (p : String) :
    (releaseLock st p).locks = st.locks.erase (pathResolve p) := rfl

theorem releaseLock_events (st : RunState) (p : String) :
    (releaseLock st p).events = st.events ++ [LEvent.rel (pathResolve p)] := rfl

/-- Release of an op's state via the canonical path returned by acquire. -/
theorem single_release_shape {st X : RunState} {p : String}
    (hmem : pathResolve p ∉ st.locks)
    (hlocks : X.locks = insert (pathResolve p) st.locks)
    (hevents : X.events = st.events ++ [LEvent.acq (pathResolve p)]) :
    (releaseLock X (pathResolve p)).locks = st.locks ∧
    pathResolve p ∉ (releaseLock X (pathResolve p)).locks ∧
    (releaseLock X (pathResolve p)).events =
      st.events ++ [LEvent.acq (pathResolve p), LEvent.rel (pathResolve p)] := by
  have hl : (releaseLock X (pathResolve p)).locks = st.locks := by
    rw [releaseLock_locks, pathResolve_idem, hlocks, Finset.erase_insert hmem]
  refine ⟨hl, by rw [hl]; exact hmem, ?_⟩
  rw [releaseLock_events, pathResolve_idem, hevents]
  simp

/- ### Claim theorems: release discipline and simple operations -/

/-- C7: `releaseLock` on a path whose canonical form is not held leaves
the lock table unchanged (and, being a total function, it never raises);
it removes the entry for the canonical path unconditionally, whoever
inserted it; and releasing twice in a row for the same path equals
releasing once as far as the lock table is concerned. -/
theorem c7_release_unheld_noop (st : RunState) (p : String) :
    (pathResolve p ∉ st.locks → (releaseLock st p).locks = st.locks) ∧
    pathResolve p ∉ (releaseLock st p).locks ∧
    (releaseLock (releaseLock st p) p).locks = (releaseLock st p).locks := by
  refine ⟨fun h => ?_, ?_, ?_⟩
  · rw [releaseLock_locks]
    exact Finset.erase_eq_of_not_mem h
  · rw [releaseLock_locks]
    exact Finset.not_mem_erase _ _
  · rw [releaseLock_locks, releaseLock_locks]
    exact Finset.erase_idem

/-- C7 witness: releasing a never-acquired path on the empty table is a
no-op. -/
theorem c7_release_unheld_noop_witness :
    pathResolve "/tmp/free.txt" ∉ (⟨∅, [], []⟩ : RunState).locks ∧
    (releaseLock ⟨∅, [], []⟩ "/tmp/free.txt").locks =
      (⟨∅, [], []⟩ : RunState).locks :=
  ⟨by decide, (c7_release_unheld_noop ⟨∅, [], []⟩ "/tmp/free.txt").1 (by decide)⟩

/-- C8: `exists` never fails: the probe's success yields `true`, any
probe failure yields `false` rather than an error, and the operation
neither reads nor mutates the lock table (the state is returned intact
and the boolean does not depend on it). -/
theorem c8_exists_never_fails (st : RunState) (p : String)
    (probe : Except String Unit) :
    (existsFile st p probe).2 = st ∧
    ((existsFile st p probe).1 = true ↔ ∃ u, probe = Except.ok u) ∧
    (∀ st' : RunState, (existsFile st' p probe).1 = (existsFile st p probe).1) := by
  rcases probe with u | m <;> simp [existsFile]

/-- C10: `acquireLock` and `releaseLock` canonicalize with the same
function `pathResolve`, `acquireLock` returns the canonical path, and a
completed acquire followed by a release of either the original path or
the returned canonical path removes exactly the inserted entry,
restoring the lock table. -/
theorem c10_acquire_release_inverse (st : RunState) (p k : String)
    (st1 : RunState) (h : acquireLock st p = some (k, st1)) :
    k = pathResolve p ∧
    (releaseLock st1 p).locks = st.locks ∧
    (releaseLock st1 k).locks = st.locks := by
  obtain ⟨hk, hmem, hst⟩ := acquireLock_some h
  subst hk
  subst hst
  refine ⟨rfl, ?_, ?_⟩
  · rw [releaseLock_locks]
    exact Finset.erase_insert hmem
  · rw [releaseLock_locks, pathResolve_idem]
    exact Finset.erase_insert hmem

/-- C10 witness: acquire on the empty table, then release, at a concrete
path. -/
theorem c10_acquire_release_inverse_witness :
    acquireLock ⟨∅, [], []⟩ "/d/x" =
      some (pathResolve "/d/x",
        (⟨{pathResolve "/d/x"}, [], [LEvent.acq (pathResolve "/d/x")]⟩ : RunState)) ∧
    (releaseLock (⟨{pathResolve "/d/x"}, [], [LEvent.acq (pathResolve "/d/x")]⟩ : RunState)
        "/d/x").locks = (⟨∅, [], []⟩ : RunState).locks := by
  have h : acquireLock ⟨∅, [], []⟩ "/d/x" =
      some (pathResolve "/d/x",
        (⟨{pathResolve "/d/x"}, [], [LEvent.acq (pathResolve "/d/x")]⟩ : RunState)) := by
    decide
  exact ⟨h, (c10_acquire_release_inverse ⟨∅, [], []⟩ "/d/x" _ _ h).2.1⟩

theorem acquireLock_fields {st : RunState} {p k : String} {st1 : RunState}
    (h : acquireLock st p = some (k, st1)) :
    k = pathResolve p ∧ pathResolve p ∉ st.locks ∧
    st1.locks = insert (pathResolve p) st.locks ∧ st1.files = st.files ∧
    st1.events = st.events ++ [LEvent.acq (pathResolve p)] := by
  obtain ⟨hk, hmem, hst⟩ := acquireLock_some h
  subst hst
  exact ⟨hk, hmem, rfl, rfl, rfl⟩

/-- Releasing both locks of a two-path operation, source first then
destination, restores the table and records one release per key. -/
theorem double_release_shape {st Y : RunState} {s dst : String}
    (hmemS : pathResolve s ∉ st.locks)
    (hmemD : pathResolve dst ∉ insert (pathResolve s) st.locks)
    (hlocks : Y.locks = insert (pathResolve dst) (insert (pathResolve s) st.locks))
    (hevents : Y.events = st.events ++
      [LEvent.acq (pathResolve s), LEvent.acq (pathResolve dst)]) :
    (releaseLock (releaseLock Y (pathResolve s)) (pathResolve dst)).locks = st.locks ∧
    pathResolve s ∉ (releaseLock (releaseLock Y (pathResolve s)) (pathResolve dst)).locks ∧
    pathResolve dst ∉ (releaseLock (releaseLock Y (pathResolve s)) (pathResolve dst)).locks ∧
    (releaseLock (releaseLock Y (pathResolve s)) (pathResolve dst)).events =
      st.events ++ [LEvent.acq (pathResolve s), LEvent.acq (pathResolve dst),
        LEvent.rel (pathResolve s), LEvent.rel (pathResolve dst)] := by
  have hD : pathResolve dst ≠ pathResolve s ∧ pathResolve dst ∉ st.locks := by
    simpa [Finset.mem_insert] using hmemD
  have hl : (releaseLock (releaseLock Y (pathResolve s)) (pathResolve dst)).locks
      = st.locks := by
    rw [releaseLock_locks, releaseLock_locks, pathResolve_idem, pathResolve_idem,
      hlocks, Finset.Insert.comm, Finset.erase_insert, Finset.erase_insert hD.2]
    simp only [Finset.mem_insert, not_or]
    exact ⟨fun h => hD.1 h.symm, hmemS⟩
  refine ⟨hl, by rw [hl]; exact hmemS, by rw [hl]; exact hD.2, ?_⟩
  rw [releaseLock_events, releaseLock_events, pathResolve_idem, pathResolve_idem,
    hevents]
  simp

theorem readFile_scoped {st : RunState} {p : String} {res : Except FHError String}
    {st1 : RunState} (h : readFile st p = some (res, st1)) :
    pathResolve p ∉ st1.locks ∧ st1.locks = st.locks ∧
    st1.events = st.events ++
      [LEvent.acq (pathResolve p), LEvent.rel (pathResolve p)] := by
  unfold readFile at h
  cases hacq : acquireLock st p with
  | none => rw [hacq] at h; exact absurd h (by simp)
  | some r =>
    obtain ⟨k, stA⟩ := r
    rw [hacq] at h
    obtain ⟨hk, hmem, hlocks, hfiles, hevents⟩ := acquireLock_fields hacq
    subst hk
    have hshape := single_release_shape hmem hlocks hevents
    rcases hlook : List.lookup (pathResolve p) stA.files with _ | d <;>
      rw [Option.map_some', hlook] at h <;>
      simp only [Option.some.injEq, Prod.mk.injEq] at h <;>
      rcases h with ⟨h1, h2⟩ <;> rw [← h2] <;>
      exact ⟨hshape.2.1, hshape.1, hshape.2.2⟩

theorem writeFile_scoped {st : RunState} {p d : String} {fsw : Except String Unit}
    {res : Except FHError Bool} {st1 : RunState}
    (h : writeFile st p d fsw = some (res, st1)) :
    pathResolve p ∉ st1.locks ∧ st1.locks = st.locks ∧
    st1.events = st.events ++
      [LEvent.acq (pathResolve p), LEvent.rel (pathResolve p)] := by
  unfold writeFile at h
  cases hacq : acquireLock st p with
  | none => rw [hacq] at h; exact absurd h (by simp)
  | some r =>
    obtain ⟨k, stA⟩ := r
    rw [hacq] at h
    obtain ⟨hk, hmem, hlocks, hfiles, hevents⟩ := acquireLock_fields hacq
    subst hk
    have hshape := single_release_shape hmem hlocks hevents
    rcases fsw with u | m <;>
      rw [Option.map_some'] at h <;>
      simp only [Option.some.injEq, Prod.mk.injEq] at h <;>
      rcases h with ⟨h1, h2⟩ <;> rw [← h2] <;>
      exact ⟨hshape.2.1, hshape.1, hshape.2.2⟩

theorem appendFile_scoped {st : RunState} {p d : String} {fsa : Except String Unit}
    {res : Except FHError Bool} {st1 : RunState}
    (h : appendFile st p d fsa = some (res, st1)) :
    pathResolve p ∉ st1.locks ∧ st1.locks = st.locks ∧
    st1.events = st.events ++
      [LEvent.acq (pathResolve p), LEvent.rel (pathResolve p)] := by
  unfold appendFile at h
  cases hacq : acquireLock st p with
  | none => rw [hacq] at h; exact absurd h (by simp)
  | some r =>
    obtain ⟨k, stA⟩ := r
    rw [hacq] at h
    obtain ⟨hk, hmem, hlocks, hfiles, hevents⟩ := acquireLock_fields hacq
    subst hk
    have hshape := single_release_shape hmem hlocks hevents
    rcases fsa with u | m <;>
      rw [Option.map_some'] at h <;>
      simp only [Option.some.injEq, Prod.mk.injEq] at h <;>
      rcases h with ⟨h1, h2⟩ <;> rw [← h2] <;>
      exact ⟨hshape.2.1, hshape.1, hshape.2.2⟩

theorem getStats_scoped {st : RunState} {p : String} {res : Except FHError Nat}
    {st1 : RunState} (h : getStats st p = some (res, st1)) :
    pathResolve p ∉ st1.locks ∧ st1.locks = st.locks ∧
    st1.events = st.events ++
      [LEvent.acq (pathResolve p), LEvent.rel (pathResolve p)] := by
  unfold getStats at h
  cases hacq : acquireLock st p with
  | none => rw [hacq] at h; exact absurd h (by simp)
  | some r =>
    obtain ⟨k, stA⟩ := r
    rw [hacq] at h
    obtain ⟨hk, hmem, hlocks, hfiles, hevents⟩ := acquireLock_fields hacq
    subst hk
    have hshape := single_release_shape hmem hlocks hevents
    rcases hlook : List.lookup (pathResolve p) stA.files with _ | d <;>
      rw [Option.map_some', hlook] at h <;>
      simp only [Option.some.injEq, Prod.mk.injEq] at h <;>
      rcases h with ⟨h1, h2⟩ <;> rw [← h2] <;>
      exact ⟨hshape.2.1, hshape.1, hshape.2.2⟩

theorem deleteFile_scoped {st : RunState} {p : String} {res : Except FHError Bool}
    {st1 : RunState} (h : deleteFile st p = some (res, st1)) :
    pathResolve p ∉ st1.locks ∧ st1.locks = st.locks ∧
    st1.events = st.events ++
      [LEvent.acq (pathResolve p), LEvent.rel (pathResolve p)] := by
  unfold deleteFile at h
  cases hacq : acquireLock st p with
  | none => rw [hacq] at h; exact absurd h (by simp)
  | some r =>
    obtain ⟨k, stA⟩ := r
    rw [hacq] at h
    obtain ⟨hk, hmem, hlocks, hfiles, hevents⟩ := acquireLock_fields hacq
    subst hk
    have hshape := single_release_shape hmem hlocks hevents
    rcases hlook : List.lookup (pathResolve p) stA.files with _ | d <;>
      rw [Option.map_some', hlook] at h <;>
      simp only [Option.some.injEq, Prod.mk.injEq] at h <;>
      rcases h with ⟨h1, h2⟩ <;> rw [← h2] <;>
      exact ⟨hshape.2.1, hshape.1, hshape.2.2⟩

theorem copyFile_scoped {st : RunState} {s dst : String} {fsc : Except String Unit}
    {res : Except FHError Bool} {st1 : RunState}
    (h : copyFile st s dst fsc = some (res, st1)) :
    pathResolve s ∉ st1.locks ∧ pathResolve dst ∉ st1.locks ∧
    st1.locks = st.locks ∧
    st1.events = st.events ++ [LEvent.acq (pathResolve s),
      LEvent.acq (pathResolve dst), LEvent.rel (pathResolve s),
      LEvent.rel (pathResolve dst)] := by
  unfold copyFile at h
  cases hacqS : acquireLock st s with
  | none => rw [hacqS] at h; exact absurd h (by simp)
  | some rs =>
    obtain ⟨kS, stA⟩ := rs
    rw [hacqS] at h
    obtain ⟨hkS, hmemS, hlocksA, hfilesA, heventsA⟩ := acquireLock_fields hacqS
    subst hkS
    rw [Option.some_bind] at h
    cases hacqD : acquireLock stA dst with
    | none => rw [hacqD] at h; exact absurd h (by simp)
    | some rd =>
      obtain ⟨kD, stB⟩ := rd
      rw [hacqD] at h
      obtain ⟨hkD, hmemD, hlocksB, hfilesB, heventsB⟩ := acquireLock_fields hacqD
      subst hkD
      rw [hlocksA] at hmemD
      have hlocksB' : stB.locks =
          insert (pathResolve dst) (insert (pathResolve s) st.locks) := by
        rw [hlocksB, hlocksA]
      have heventsB' : stB.events = st.events ++
          [LEvent.acq (pathResolve s), LEvent.acq (pathResolve dst)] := by
        rw [heventsB, heventsA]
        simp
      have hshape := double_release_shape hmemS hmemD hlocksB' heventsB'
      rw [Option.map_some'] at h
      simp only [Option.some.injEq] at h
      split at h <;>
        (injection h with h1 h2; subst h2;
         exact ⟨(double_release_shape hmemS hmemD hlocksB' heventsB').2.1,
           (double_release_shape hmemS hmemD hlocksB' heventsB').2.2.1,
           (double_release_shape hmemS hmemD hlocksB' heventsB').1,
           (double_release_shape hmemS hmemD hlocksB' heventsB').2.2.2⟩)

/-- C3: scoped acquisition.  Every locking safe file operation that
completes — by returning a result or by throwing — leaves the lock table
without an entry for the canonical form of its target path(s); the table
is restored to its pre-call state and exactly one release event per
acquired key is recorded, on every exit path. -/
theorem c3_scoped_acquisition :
    (∀ (st : RunState) (p : String) res st1, readFile st p = some (res, st1) →
      pathResolve p ∉ st1.locks ∧ st1.locks = st.locks ∧
      st1.events = st.events ++
        [LEvent.acq (pathResolve p), LEvent.rel (pathResolve p)]) ∧
    (∀ (st : RunState) (p d : String) fsw res st1,
      writeFile st p d fsw = some (res, st1) →
      pathResolve p ∉ st1.locks ∧ st1.locks = st.locks ∧
      st1.events = st.events ++
        [LEvent.acq (pathResolve p), LEvent.rel (pathResolve p)]) ∧
    (∀ (st : RunState) (p d : String) fsa res st1,
      appendFile st p d fsa = some (res, st1) →
      pathResolve p ∉ st1.locks ∧ st1.locks = st.locks ∧
      st1.events = st.events ++
        [LEvent.acq (pathResolve p), LEvent.rel (pathResolve p)]) ∧
    (∀ (st : RunState) (p : String) res st1, getStats st p = some (res, st1) →
      pathResolve p ∉ st1.locks ∧ st1.locks = st.locks ∧
      st1.events = st.events ++
        [LEvent.acq (pathResolve p), LEvent.rel (pathResolve p)]) ∧
    (∀ (st : RunState) (p : String) res st1, deleteFile st p = some (res, st1) →
      pathResolve p ∉ st1.locks ∧ st1.locks = st.locks ∧
      st1.events = st.events ++
        [LEvent.acq (pathResolve p), LEvent.rel (pathResolve p)]) ∧
    (∀ (st : RunState) (s dst : String) fsc res st1,
      copyFile st s dst fsc = some (res, st1) →
      pathResolve s ∉ st1.locks ∧ pathResolve dst ∉ st1.locks ∧
      st1.locks = st.locks ∧
      st1.events = st.events ++ [LEvent.acq (pathResolve s),
        LEvent.acq (pathResolve dst), LEvent.rel (pathResolve s),
        LEvent.rel (pathResolve dst)]) :=
  ⟨fun _ _ _ _ h => readFile_scoped h,
   fun _ _ _ _ _ _ h => writeFile_scoped h,
   fun _ _ _ _ _ _ h => appendFile_scoped h,
   fun _ _ _ _ h => getStats_scoped h,
   fun _ _ _ _ h => deleteFile_scoped h,
   fun _ _ _ _ _ _ h => copyFile_scoped h⟩

/-- C3 witness: a throwing exit path — reading a missing file on the
empty table — still releases the lock and restores the table. -/
theorem c3_scoped_acquisition_witness :
    readFile ⟨∅, [], []⟩ "/w.txt" =
      some (Except.error (FHError.readError "/w.txt" enoentMsg),
        (⟨∅, [], [LEvent.acq (pathResolve "/w.txt"),
          LEvent.rel (pathResolve "/w.txt")]⟩ : RunState)) ∧
    pathResolve "/w.txt" ∉
      (⟨∅, [], [LEvent.acq (pathResolve "/w.txt"),
        LEvent.rel (pathResolve "/w.txt")]⟩ : RunState).locks := by
  have h : readFile ⟨∅, [], []⟩ "/w.txt" =
      some (Except.error (FHError.readError "/w.txt" enoentMsg),
        (⟨∅, [], [LEvent.acq (pathResolve "/w.txt"),
          LEvent.rel (pathResolve "/w.txt")]⟩ : RunState)) := by decide
  exact ⟨h, (c3_scoped_acquisition.1 ⟨∅, [], []⟩ "/w.txt" _ _ h).1⟩

/- ### JSON model: JSON.stringify(value, null, 2) and JSON.parse -/

/-- JSON values.  Numbers are modelled as integers (the values the
decimal printer and parser exchange exactly). -/
inductive JsonValue where
  | null
  | bool (b : Bool)
  | num (n : Int)
  | str (s : String)
  | arr (elems : List JsonValue)
  | obj (members : List (String × JsonValue))

/-- Decimal digit character for a value below ten. -/
def digitChar (n : Nat) : Char := Char.ofNat (48 + n)

def natToCharsAux (n : Nat) (acc : List Char) : List Char :=
  if h : n = 0 then acc
  else natToCharsAux (n / 10) (digitChar (n % 10) :: acc)
termination_by n
decreasing_by exact Nat.div_lt_self (Nat.pos_of_ne_zero h) (by norm_num)

/-- Decimal representation of a natural number. -/
def natToChars (n : Nat) : List Char :=
  if n = 0 then ['0'] else natToCharsAux n []

/-- Decimal representation of an integer, as `String(n)` renders it. -/
def intToChars : Int → List Char
  | Int.ofNat m => natToChars m
  | Int.negSucc m => '-' :: natToChars (m + 1)

/-- Lower-case hexadecimal digit character for a value below sixteen. -/
def hexDigit (n : Nat) : Char :=
  if n < 10 then Char.ofNat (48 + n) else Char.ofNat (87 + n)

/-- JSON string escaping of one character, as `JSON.stringify` performs
it: quote, backslash and the named control escapes, a `\u00xx` escape
for the remaining control characters, all else literal. -/
def escChar (c : Char) : List Char :=
  if c = '"' then ['\\', '"']
  else if c = '\\' then ['\\', '\\']
  else if c = '\n' then ['\\', 'n']
  else if c = '\r' then ['\\', 'r']
  else if c = '\t' then ['\\', 't']
  else if c = '\x08' then ['\\', 'b']
  else if c = '\x0c' then ['\\', 'f']
  else if c.toNat < 32 then
    ['\\', 'u', '0', '0', hexDigit (c.toNat / 16), hexDigit (c.toNat % 16)]
  else [c]

/-- A JSON string literal: quoted, characters escaped. -/
def quoteChars (s : List Char) : List Char :=
  '"' :: (s.flatMap escChar ++ ['"'])

/-- Indentation unit for `space = 2`, the source's default. -/
def twoSpaces : List Char := [' ', ' ']

mutual

/-- Characters of `JSON.stringify(v, null, 2)` at indentation `ind`. -/
def sAux : JsonValue → List Char → List Char
  | JsonValue.null, _ => ['n', 'u', 'l', 'l']
  | JsonValue.bool true, _ => ['t', 'r', 'u', 'e']
  | JsonValue.bool false, _ => ['f', 'a', 'l', 's', 'e']
  | JsonValue.num n, _ => intToChars n
  | JsonValue.str s, _ => quoteChars s.data
  | JsonValue.arr [], _ => ['[', ']']
  | JsonValue.arr (x :: xs), ind =>
      '[' :: '\n' :: ((ind ++ twoSpaces) ++ sAux x (ind ++ twoSpaces) ++
        sTail xs (ind ++ twoSpaces) ++ '\n' :: (ind ++ [']']))
  | JsonValue.obj [], _ => ['{', '}']
  | JsonValue.obj ((k, v) :: ms), ind =>
      '{' :: '\n' :: ((ind ++ twoSpaces) ++ quoteChars k.data ++
        ':' :: ' ' :: sAux v (ind ++ twoSpaces) ++
        sObjTail ms (ind ++ twoSpaces) ++ '\n' :: (ind ++ ['}']))

/-- Remaining array elements, each preceded by `",\n" ++ ind`. -/
def sTail : List JsonValue → List Char → List Char
  | [], _ => []
  | x :: xs, ind => ',' :: '\n' :: (ind ++ sAux x ind ++ sTail xs ind)

/-- Remaining object members, each preceded by `",\n" ++ ind`. -/
def sObjTail : List (String × JsonValue) → List Char → List Char
  | [], _ => []
  | (k, v) :: ms, ind =>
      ',' :: '\n' :: (ind ++ quoteChars k.data ++ ':' :: ' ' :: sAux v ind ++
        sObjTail ms ind)

end

/-- Model of `JSON.stringify(obj, null, 2)` — the call `writeJSON` makes
with its default `space = 2`. -/
def jsonStringify2 (v : JsonValue) : String := String.mk (sAux v [])

/-- JSON whitespace. -/
def isWs (c : Char) : Bool := c = ' ' || c = '\n' || c = '\t' || c = '\r'

/-- Drop leading JSON whitespace. -/
def skipWs : List Char → List Char
  | [] => []
  | c :: rest => if isWs c then skipWs rest else c :: rest

def digitVal (c : Char) : Nat := c.toNat - 48

/-- Maximal run of decimal digits, folded onto an accumulator. -/
def parseDigitsAux : List Char → Nat → Nat × List Char
  | [], acc => (acc, [])
  | c :: rest, acc =>
    if c.isDigit then parseDigitsAux rest (acc * 10 + digitVal c)
    else (acc, c :: rest)

/-- A decimal natural number: at least one digit, maximal munch. -/
def parseNat : List Char → Option (Nat × List Char)
  | [] => none
  | c :: rest =>
    if c.isDigit then some (parseDigitsAux rest (digitVal c)) else none

/-- Value of a hexadecimal digit character. -/
def hexVal (c : Char) : Option Nat :=
  if c.isDigit then some (c.toNat - 48)
  else if 'a' ≤ c && c ≤ 'f' then some (c.toNat - 87)
  else if 'A' ≤ c && c ≤ 'F' then some (c.toNat - 55)
  else none

/-- Four hexadecimal digits and their value, or `none`. -/
def parseHex4 : List Char → Option (Nat × List Char)
  | h1 :: h2 :: h3 :: h4 :: rest =>
    (match hexVal h1, hexVal h2, hexVal h3, hexVal h4 with
     | some a, some b, some c, some d =>
         some ((((a * 16 + b) * 16 + c) * 16 + d), rest)
     | _, _, _, _ => none)
  | _ => none

mutual

/-- Body of a JSON string literal after the opening quote: characters up
to the closing quote, decoding escapes, rejecting raw control
characters (fuel-indexed; one fuel unit per consumed character
suffices). -/
def parseStrAux : Nat → List Char → Option (List Char × List Char)
  | 0, _ => none
  | fuel + 1, cs =>
    match cs with
    | [] => none
    | c :: rest =>
      if c = '"' then some ([], rest)
      else if c = '\\' then parseEsc fuel rest
      else if c.toNat < 32 then none
      else (parseStrAux fuel rest).map fun r => (c :: r.1, r.2)

/-- Everything after a backslash inside a JSON string literal. -/
def parseEsc : Nat → List Char → Option (List Char × List Char)
  | 0, _ => none
  | fuel + 1, cs =>
    match cs with
    | [] => none
    | e :: rest1 =>
      if e = '"' then (parseStrAux fuel rest1).map fun r => ('"' :: r.1, r.2)
      else if e = '\\' then (parseStrAux fuel rest1).map fun r => ('\\' :: r.1, r.2)
      else if e = '/' then (parseStrAux fuel rest1).map fun r => ('/' :: r.1, r.2)
      else if e = 'n' then (parseStrAux fuel rest1).map fun r => ('\n' :: r.1, r.2)
      else if e = 'r' then (parseStrAux fuel rest1).map fun r => ('\r' :: r.1, r.2)
      else if e = 't' then (parseStrAux fuel rest1).map fun r => ('\t' :: r.1, r.2)
      else if e = 'b' then (parseStrAux fuel rest1).map fun r => ('\x08' :: r.1, r.2)
      else if e = 'f' then (parseStrAux fuel rest1).map fun r => ('\x0c' :: r.1, r.2)
      else if e = 'u' then
        match parseHex4 rest1 with
        | none => none
        | some (n, rest2) =>
          if h : Nat.isValidChar n then
            (parseStrAux fuel rest2).map fun r => (Char.ofNatAux n h :: r.1, r.2)
          else none
      else none

end

/-- A JSON string-literal body, with enough fuel for its own length. -/
def parseStr (cs : List Char) : Option (List Char × List Char) :=
  parseStrAux (cs.length + 1) cs

mutual

/-- One JSON value (fuel-indexed recursive-descent parser, modelling
`JSON.parse` on the grammar the claims need, with integer numbers). -/
def parseVal : Nat → List Char → Option (JsonValue × List Char)
  | 0, _ => none
  | fuel + 1, cs =>
    let s := skipWs cs
    if s.take 4 = ['n', 'u', 'l', 'l'] then some (JsonValue.null, s.drop 4)
    else if s.take 4 = ['t', 'r', 'u', 'e'] then some (JsonValue.bool true, s.drop 4)
    else if s.take 5 = ['f', 'a', 'l', 's', 'e'] then
      some (JsonValue.bool false, s.drop 5)
    else if s.head? = some '"' then
      (parseStr s.tail).map fun r => (JsonValue.str (String.mk r.1), r.2)
    else if s.head? = some '-' then
      (parseNat s.tail).map fun r => (JsonValue.num (-(r.1 : Int)), r.2)
    else if s.head? = some '[' then
      if (skipWs s.tail).head? = some ']' then
        some (JsonValue.arr [], (skipWs s.tail).tail)
      else do
        let r1 ← parseVal fuel (skipWs s.tail)
        let r2 ← parseArrTail fuel r1.2
        pure (JsonValue.arr (r1.1 :: r2.1), r2.2)
    else if s.head? = some '{' then
      if (skipWs s.tail).head? = some '}' then
        some (JsonValue.obj [], (skipWs s.tail).tail)
      else do
        let r1 ← parseMember fuel (skipWs s.tail)
        let r2 ← parseObjTail fuel r1.2
        pure (JsonValue.obj (r1.1 :: r2.1), r2.2)
    else (parseNat s).map fun r => (JsonValue.num (r.1 : Int), r.2)

/-- After an array element: `]` closes, `,` precedes the next element. -/
def parseArrTail : Nat → List Char → Option (List JsonValue × List Char)
  | 0, _ => none
  | fuel + 1, cs =>
    let s := skipWs cs
    if s.head? = some ']' then some ([], s.tail)
    else if s.head? = some ',' then do
      let r1 ← parseVal fuel s.tail
      let r2 ← parseArrTail fuel r1.2
      pure (r1.1 :: r2.1, r2.2)
    else none

/-- One `"key": value` object member. -/
def parseMember : Nat → List Char → Option ((String × JsonValue) × List Char)
  | 0, _ => none
  | fuel + 1, cs =>
    let s := skipWs cs
    if s.head? = some '"' then
      match parseStr s.tail with
      | none => none
      | some (k, r1) =>
        if (skipWs r1).head? = some ':' then
          (parseVal fuel (skipWs r1).tail).map fun r => ((String.mk k, r.1), r.2)
        else none
    else none

/-- After an object member: `}` closes, `,` precedes the next member. -/
def parseObjTail : Nat → List Char →
    Option (List (String × JsonValue) × List Char)
  | 0, _ => none
  | fuel + 1, cs =>
    let s := skipWs cs
    if s.head? = some '}' then some ([], s.tail)
    else if s.head? = some ',' then do
      let r1 ← parseMember fuel s.tail
      let r2 ← parseObjTail fuel r1.2
      pure (r1.1 :: r2.1, r2.2)
    else none

end

/-- Model of `JSON.parse(s)`: parse one value and require only trailing
whitespace after it; `none` models a thrown `SyntaxError`. -/
def jsonParse (s : String) : Option JsonValue :=
  match parseVal (s.data.length + 1) s.data with
  | some r => if skipWs r.2 = [] then some r.1 else none
  | none => none

/- ### JSON file operations -/

/-- A JavaScript value passed to `writeJSON`: either a JSON-serializable
value or a value `JSON.stringify` refuses to serialize (a BigInt). -/
inductive JsValue where
  | json (v : JsonValue)
  | bigintVal (n : Int)

/-- Model of `JSON.stringify(obj, null, 2)` including its failure mode:
serializing a BigInt throws a `TypeError`. -/
def jsonStringifyJS : JsValue → Except String String
  | JsValue.json v => Except.ok (jsonStringify2 v)
  | JsValue.bigintVal _ => Except.error "Do not know how to serialize a BigInt"

/-- Message of the model `SyntaxError` thrown by `JSON.parse`. -/
def parseFailMsg : String := "Unexpected token"

/-- Model of `FileHandler.readJSON`: `readFile` outside the try block (its
failure propagates unchanged), then `JSON.parse` inside it (a parse
failure is wrapped as the parse error). -/
def readJSON (st : RunState) (filePath : String) :
    Option (Except FHError JsonValue × RunState) :=
  (readFile st filePath).map fun r =>
    match r.1 with
    | Except.error e => (Except.error e, r.2)
    | Except.ok data =>
      match jsonParse data with
      | some v => (Except.ok v, r.2)
      | none => (Except.error (FHError.parseError filePath parseFailMsg), r.2)

/-- Model of `FileHandler.writeJSON`: one try block around both
`JSON.stringify` and the `writeFile` call, so either failure is
re-thrown as the same `Failed to write JSON to …` error carrying the
underlying message. -/
def writeJSON (st : RunState) (filePath : String) (obj : JsValue)
    (fsw : Except String Unit) : Option (Except FHError Bool × RunState) :=
  match jsonStringifyJS obj with
  | Except.error m =>
      some (Except.error (FHError.writeJSONError filePath m), st)
  | Except.ok data =>
    (writeFile st filePath data fsw).map fun r =>
      match r.1 with
      | Except.ok b => (Except.ok b, r.2)
      | Except.error e =>
          (Except.error (FHError.writeJSONError filePath e.message), r.2)

/- ### Claim theorems: JSON error classification -/

/-- C4: `readJSON` keeps its two failure modes distinct: a failing read
(here: missing file) propagates the read failure untouched, and a
successful read of invalid JSON yields the parse failure; the two are
different errors. -/
theorem c4_readJSON_error_classes :
    (∀ (st : RunState) (p : String), pathResolve p ∉ st.locks →
      List.lookup (pathResolve p) st.files = none →
      ∃ st1, readJSON st p =
        some (Except.error (FHError.readError p enoentMsg), st1)) ∧
    (∀ (st : RunState) (p data : String), pathResolve p ∉ st.locks →
      List.lookup (pathResolve p) st.files = some data → jsonParse data = none →
      ∃ st1, readJSON st p =
        some (Except.error (FHError.parseError p parseFailMsg), st1)) ∧
    (∀ p m m', FHError.readError p m ≠ FHError.parseError p m') := by
  refine ⟨?_, ?_, ?_⟩
  · intro st p hfree hnone
    refine ⟨releaseLock { st with
      locks := insert (pathResolve p) st.locks,
      events := st.events ++ [LEvent.acq (pathResolve p)] } (pathResolve p), ?_⟩
    rw [readJSON, readFile, acquireLock, if_neg hfree, Option.map_some',
      Option.map_some']
    show some _ = _
    rw [hnone]
  · intro st p data hfree hdata hbad
    refine ⟨releaseLock { st with
      locks := insert (pathResolve p) st.locks,
      events := st.events ++ [LEvent.acq (pathResolve p)] } (pathResolve p), ?_⟩
    rw [readJSON, readFile, acquireLock, if_neg hfree, Option.map_some',
      Option.map_some']
    show some _ = _
    rw [hdata]
    show some (_, _) = _
    rw [hbad]
  · intro p m m' h
    exact FHError.noConfusion h

/-- C4 witness: a missing file yields the read error; an existing file
holding `nope` yields the parse error. -/
theorem c4_readJSON_error_classes_witness :
    (∃ st1, readJSON ⟨∅, [], []⟩ "/missing.json" =
      some (Except.error (FHError.readError "/missing.json" enoentMsg), st1)) ∧
    (∃ st1, readJSON ⟨∅, [(pathResolve "/bad.json", "nope")], []⟩ "/bad.json" =
      some (Except.error (FHError.parseError "/bad.json" parseFailMsg), st1)) := by
  constructor
  · exact c4_readJSON_error_classes.1 ⟨∅, [], []⟩ "/missing.json"
      (by decide) (by decide)
  · exact c4_readJSON_error_classes.2.1 ⟨∅, [(pathResolve "/bad.json", "nope")], []⟩
      "/bad.json" "nope" (by decide) (by decide) rfl

/-- C5 counterexample: the claim says a failing underlying write yields a
`WriteError` distinct from a serialization failure.  In the source both
the `JSON.stringify` throw and the `writeFile` rejection are caught by
the same block and re-thrown as the same `Failed to write JSON to …`
error: at these concrete inputs the unserializable value and the failing
write produce errors with the same `writeJSONError` classification, not
distinct ones. -/
theorem c5_writeJSON_counterexample :
    writeJSON ⟨∅, [], []⟩ "/v" (JsValue.bigintVal 1) (Except.ok ()) =
      some (Except.error (FHError.writeJSONError "/v"
        "Do not know how to serialize a BigInt"), ⟨∅, [], []⟩) ∧
    writeJSON ⟨∅, [], []⟩ "/v" (JsValue.json (JsonValue.num 0))
        (Except.error "disk full") =
      some (Except.error (FHError.writeJSONError "/v"
          "Failed to write file /v: disk full"),
        ⟨∅, [], [LEvent.acq (pathResolve "/v"), LEvent.rel (pathResolve "/v")]⟩) ∧
    FHError.writeJSONError "/v" "Failed to write file /v: disk full" ≠
      FHError.writeError "/v" "disk full" :=
  ⟨rfl, by decide, by decide⟩

/-- C5 as amended: `writeJSON` reports every failure — a value the
serializer refuses as well as a failing underlying write — through the
single `Failed to write JSON to …` wrapper (`writeJSONError`); the two
modes are distinguishable only by the wrapped cause message (the
serializer's message, or `writeFile`'s own wrapped message), not by the
error's classification. -/
theorem c5_writeJSON_uniform_wrapping :
    (∀ (st : RunState) (p : String) (n : Int) (fsw : Except String Unit),
      writeJSON st p (JsValue.bigintVal n) fsw =
        some (Except.error (FHError.writeJSONError p
          "Do not know how to serialize a BigInt"), st)) ∧
    (∀ (st : RunState) (p : String) (v : JsonValue) (m : String) res st1,
      writeJSON st p (JsValue.json v) (Except.error m) = some (res, st1) →
      res = Except.error (FHError.writeJSONError p
        ("Failed to write file " ++ p ++ ": " ++ m))) := by
  constructor
  · intro st p n fsw
    rfl
  · intro st p v m res st1 h
    unfold writeJSON jsonStringifyJS at h
    unfold writeFile at h
    cases hacq : acquireLock st p with
    | none => rw [hacq] at h; exact absurd h (by simp)
    | some r =>
      rw [hacq] at h
      simp only [Option.map_some'] at h
      injection h with h'
      injection h' with h1 h2
      exact h1.symm

/-- C5 amended-claim witness: both branches at concrete inputs. -/
theorem c5_writeJSON_uniform_wrapping_witness :
    writeJSON ⟨∅, [], []⟩ "/w" (JsValue.bigintVal 2) (Except.ok ()) =
      some (Except.error (FHError.writeJSONError "/w"
        "Do not know how to serialize a BigInt"), ⟨∅, [], []⟩) ∧
    (Except.error (FHError.writeJSONError "/w"
        ("Failed to write file " ++ "/w" ++ ": " ++ "boom")) :
      Except FHError Bool) =
      Except.error (FHError.writeJSONError "/w"
        ("Failed to write file " ++ "/w" ++ ": " ++ "boom")) := by
  have h : writeJSON ⟨∅, [], []⟩ "/w" (JsValue.json JsonValue.null)
      (Except.error "boom") =
      some (Except.error (FHError.writeJSONError "/w"
          ("Failed to write file " ++ "/w" ++ ": " ++ "boom")),
        ⟨∅, [], [LEvent.acq (pathResolve "/w"), LEvent.rel (pathResolve "/w")]⟩) := by
    decide
  exact ⟨c5_writeJSON_uniform_wrapping.1 ⟨∅, [], []⟩ "/w" 2 (Except.ok ()),
    c5_writeJSON_uniform_wrapping.2 ⟨∅, [], []⟩ "/w" JsonValue.null "boom" _ _ h⟩

/- ### Round-trip: decimal digits -/

/-- The next character, if any, is not a digit (so a maximal-munch number
parse stops exactly at the boundary). -/
def NoDigitHead (cs : List Char) : Prop :=
  ∀ c, cs.head? = some c → c.isDigit = false

theorem noDigitHead_nil : NoDigitHead [] := by
  intro c h; cases h

theorem noDigitHead_cons {c : Char} {l : List Char} (h : c.isDigit = false) :
    NoDigitHead (c :: l) := by
  intro d hd
  rw [List.head?_cons] at hd
  rw [← Option.some.inj hd]
  exact h

theorem digitChar_facts : ∀ d < 10,
    (digitChar d).isDigit = true ∧ digitVal (digitChar d) = d := by decide

/-- Big-endian digit characters of a natural number. -/
def digitsBE (n : Nat) : List Char := ((Nat.digits 10 n).map digitChar).reverse

theorem natToCharsAux_eq_digitsBE :
    ∀ (n : Nat) (acc : List Char), natToCharsAux n acc = digitsBE n ++ acc := by
  intro n
  induction n using Nat.strong_induction_on with
  | _ n ih =>
    intro acc
    by_cases h : n = 0
    · subst h
      rw [natToCharsAux]
      simp [digitsBE]
    · rw [natToCharsAux, dif_neg h,
        ih (n / 10) (Nat.div_lt_self (Nat.pos_of_ne_zero h) (by norm_num))]
      have hd : Nat.digits 10 n = n % 10 :: Nat.digits 10 (n / 10) :=
        Nat.digits_def' (by norm_num) (Nat.pos_of_ne_zero h)
      rw [digitsBE, digitsBE, hd]
      simp

theorem digitsBE_all_digits (n : Nat) :
    ∀ c ∈ digitsBE n, c.isDigit = true := by
  intro c hc
  rw [digitsBE] at hc
  simp only [List.mem_reverse, List.mem_map] at hc
  obtain ⟨d, hd, rfl⟩ := hc
  exact (digitChar_facts d (Nat.digits_lt_base (by norm_num) hd)).1

theorem parseDigitsAux_append :
    ∀ (L rest : List Char) (acc : Nat), (∀ c ∈ L, c.isDigit = true) →
    NoDigitHead rest →
    parseDigitsAux (L ++ rest) acc =
      (L.foldl (fun a c => a * 10 + digitVal c) acc, rest) := by
  intro L
  induction L with
  | nil =>
    intro rest acc _ hrest
    cases rest with
    | nil => rfl
    | cons c r =>
      have hc := hrest c rfl
      simp [parseDigitsAux, hc]
  | cons c L ih =>
    intro rest acc hL hrest
    have hc := hL c (List.mem_cons_self _ _)
    simp only [List.cons_append, parseDigitsAux, hc, if_true, List.append_eq]
    rw [ih rest _ (fun x hx => hL x (List.mem_cons_of_mem _ hx)) hrest]
    simp

theorem foldr_digit_list :
    ∀ (ds : List Nat) (acc : Nat), (∀ d ∈ ds, d < 10) →
    ds.foldr (fun d a => a * 10 + digitVal (digitChar d)) acc =
      acc * 10 ^ ds.length + Nat.ofDigits 10 ds := by
  intro ds
  induction ds with
  | nil =>
    intro acc _
    simp [Nat.ofDigits]
  | cons d ds ih =>
    intro acc hds
    have hd := hds d (List.mem_cons_self _ _)
    simp only [List.foldr_cons, ih acc (fun x hx => hds x (List.mem_cons_of_mem _ hx)),
      (digitChar_facts d hd).2, Nat.ofDigits_cons, List.length_cons, pow_succ]
    ring

theorem foldl_digitsBE (n acc : Nat) :
    (digitsBE n).foldl (fun a c => a * 10 + digitVal c) acc =
      acc * 10 ^ (Nat.digits 10 n).length + n := by
  rw [digitsBE, List.foldl_reverse, List.foldr_map]
  have := foldr_digit_list (Nat.digits 10 n) acc
    (fun d hd => Nat.digits_lt_base (by norm_num) hd)
  rw [Nat.ofDigits_digits] at this
  exact this

theorem parseNat_natToChars (n : Nat) (rest : List Char)
    (hrest : NoDigitHead rest) :
    parseNat (natToChars n ++ rest) = some (n, rest) := by
  by_cases h : n = 0
  · subst h
    show parseNat ('0' :: rest) = some (0, rest)
    simp only [parseNat]
    rw [if_pos (by decide)]
    have h0 : digitVal '0' = 0 := by decide
    rw [h0]
    have := parseDigitsAux_append [] rest 0 (by simp) hrest
    simpa using this
  · have hne : natToChars n = digitsBE n := by
      rw [natToChars, if_neg h, natToCharsAux_eq_digitsBE]
      simp
    rcases hBE : digitsBE n with _ | ⟨c, L⟩
    · exfalso
      have hnn : Nat.digits 10 n ≠ [] := Nat.digits_ne_nil_iff_ne_zero.mpr h
      rw [digitsBE] at hBE
      simp only [List.reverse_eq_nil_iff, List.map_eq_nil_iff] at hBE
      exact hnn hBE
    · have hall := digitsBE_all_digits n
      rw [hBE] at hall
      have hc := hall c (List.mem_cons_self _ _)
      rw [hne, hBE]
      show parseNat (c :: (L ++ rest)) = some (n, rest)
      simp only [parseNat]
      rw [if_pos hc,
        parseDigitsAux_append L rest _ (fun x hx => hall x (List.mem_cons_of_mem _ hx)) hrest]
      have hfold := foldl_digitsBE n 0
      rw [hBE] at hfold
      simp only [List.foldl_cons, Nat.zero_mul, Nat.zero_add] at hfold
      rw [hfold]

/- ### Round-trip: string escapes -/

theorem hexVal_hexDigit : ∀ m < 16, hexVal (hexDigit m) = some m := by decide

theorem ofNatAux_toNat (c : Char) (h : Nat.isValidChar c.toNat) :
    Char.ofNatAux c.toNat h = c := by
  have hc := Char.ofNat_toNat c
  rw [Char.ofNat, dif_pos h] at hc
  exact hc


theorem parseStrAux_cons (f : Nat) (c : Char) (X : List Char) :
    parseStrAux (f + 1) (c :: X) =
      (if c = '"' then some ([], X)
       else if c = '\\' then parseEsc f X
       else if c.toNat < 32 then none
       else (parseStrAux f X).map fun r => (c :: r.1, r.2)) := rfl

theorem parseEsc_cons (f : Nat) (e : Char) (X : List Char) :
    parseEsc (f + 1) (e :: X) =
      (if e = '"' then (parseStrAux f X).map fun r => ('"' :: r.1, r.2)
       else if e = '\\' then (parseStrAux f X).map fun r => ('\\' :: r.1, r.2)
       else if e = '/' then (parseStrAux f X).map fun r => ('/' :: r.1, r.2)
       else if e = 'n' then (parseStrAux f X).map fun r => ('\n' :: r.1, r.2)
       else if e = 'r' then (parseStrAux f X).map fun r => ('\r' :: r.1, r.2)
       else if e = 't' then (parseStrAux f X).map fun r => ('\t' :: r.1, r.2)
       else if e = 'b' then (parseStrAux f X).map fun r => ('\x08' :: r.1, r.2)
       else if e = 'f' then (parseStrAux f X).map fun r => ('\x0c' :: r.1, r.2)
       else if e = 'u' then
         match parseHex4 X with
         | none => none
         | some (n, rest2) =>
           if h : Nat.isValidChar n then
             (parseStrAux f rest2).map fun r => (Char.ofNatAux n h :: r.1, r.2)
           else none
       else none) := rfl

/-- A two-character named escape round-trips through one `parseEsc` step. -/
theorem escape_step2 {c e : Char} (hesc : escChar c = ['\\', e])
    (hee : ∀ (f : Nat) (X : List Char), parseEsc (f + 1) (e :: X) =
      (parseStrAux f X).map fun r => (c :: r.1, r.2))
    (cs rest : List Char) (fuel : Nat)
    (hfuel : ((c :: cs).flatMap escChar).length + 1 ≤ fuel)
    (ih : ∀ (rest' : List Char) (fuel' : Nat),
      (cs.flatMap escChar).length + 1 ≤ fuel' →
      parseStrAux fuel' (cs.flatMap escChar ++ '"' :: rest') = some (cs, rest')) :
    parseStrAux fuel ((c :: cs).flatMap escChar ++ '"' :: rest) =
      some (c :: cs, rest) := by
  rw [List.flatMap_cons, hesc] at hfuel ⊢
  simp only [List.length_append, List.length_cons] at hfuel
  obtain ⟨f, rfl⟩ : ∃ f, fuel = f + 2 := ⟨fuel - 2, by omega⟩
  show parseStrAux (f + 1 + 1) ('\\' :: e :: (cs.flatMap escChar ++ '"' :: rest)) = _
  rw [parseStrAux_cons, if_neg (by decide), if_pos rfl, hee,
    ih rest f (by omega)]
  rfl

/-- `JSON.stringify` escaping followed by string-body parsing is the
identity on the escaped characters. -/
theorem parseStrAux_escape :
    ∀ (cs rest : List Char) (fuel : Nat),
    (cs.flatMap escChar).length + 1 ≤ fuel →
    parseStrAux fuel (cs.flatMap escChar ++ '"' :: rest) = some (cs, rest) := by
  intro cs
  induction cs with
  | nil =>
    intro rest fuel hfuel
    obtain ⟨f, rfl⟩ : ∃ f, fuel = f + 1 := ⟨fuel - 1, by omega⟩
    simp only [List.flatMap_nil, List.nil_append]
    rw [parseStrAux_cons, if_pos rfl]
  | cons c cs ih =>
    intro rest fuel hfuel
    by_cases h1 : c = '"'
    · subst h1
      exact escape_step2 (c := '"') (e := '"') rfl (fun f X => rfl) cs rest fuel hfuel ih
    · by_cases h2 : c = '\\'
      · subst h2
        exact escape_step2 (c := '\\') (e := '\\') rfl (fun f X => rfl) cs rest fuel hfuel ih
      · by_cases h3 : c = '\n'
        · subst h3
          exact escape_step2 (c := '\n') (e := 'n') rfl (fun f X => rfl) cs rest fuel hfuel ih
        · by_cases h4 : c = '\r'
          · subst h4
            exact escape_step2 (c := '\r') (e := 'r') rfl (fun f X => rfl) cs rest fuel hfuel ih
          · by_cases h5 : c = '\t'
            · subst h5
              exact escape_step2 (c := '\t') (e := 't') rfl (fun f X => rfl) cs rest fuel hfuel ih
            · by_cases h6 : c = '\x08'
              · subst h6
                exact escape_step2 (c := '\x08') (e := 'b') rfl (fun f X => rfl) cs rest fuel hfuel ih
              · by_cases h7 : c = '\x0c'
                · subst h7
                  exact escape_step2 (c := '\x0c') (e := 'f') rfl (fun f X => rfl) cs rest fuel hfuel ih
                · by_cases h8 : c.toNat < 32
                  · have hesc : escChar c = ['\\', 'u', '0', '0',
                        hexDigit (c.toNat / 16), hexDigit (c.toNat % 16)] := by
                      rw [escChar, if_neg h1, if_neg h2, if_neg h3, if_neg h4,
                        if_neg h5, if_neg h6, if_neg h7, if_pos h8]
                    rw [List.flatMap_cons, hesc] at hfuel ⊢
                    simp only [List.length_append, List.length_cons] at hfuel
                    obtain ⟨f, rfl⟩ : ∃ f, fuel = f + 2 := ⟨fuel - 2, by omega⟩
                    show parseStrAux (f + 1 + 1) ('\\' :: 'u' :: '0' :: '0' ::
                      hexDigit (c.toNat / 16) :: hexDigit (c.toNat % 16) ::
                      (cs.flatMap escChar ++ '"' :: rest)) = _
                    rw [parseStrAux_cons, if_neg (by decide), if_pos rfl,
                      parseEsc_cons, if_neg (by decide), if_neg (by decide),
                      if_neg (by decide), if_neg (by decide), if_neg (by decide),
                      if_neg (by decide), if_neg (by decide), if_neg (by decide),
                      if_pos rfl]
                    have hhex : parseHex4 ('0' :: '0' :: hexDigit (c.toNat / 16) ::
                        hexDigit (c.toNat % 16) :: (cs.flatMap escChar ++ '"' :: rest)) =
                        some (c.toNat, cs.flatMap escChar ++ '"' :: rest) := by
                      show (match hexVal '0', hexVal '0', hexVal (hexDigit (c.toNat / 16)),
                          hexVal (hexDigit (c.toNat % 16)) with
                        | some a, some b, some c', some d =>
                            some ((((a * 16 + b) * 16 + c') * 16 + d),
                              cs.flatMap escChar ++ '"' :: rest)
                        | _, _, _, _ => none) = _
                      rw [hexVal_hexDigit (c.toNat / 16) (by omega),
                        hexVal_hexDigit (c.toNat % 16) (by omega),
                        show hexVal '0' = some 0 from rfl]
                      show some ((((0 * 16 + 0) * 16 + c.toNat / 16) * 16 + c.toNat % 16),
                        cs.flatMap escChar ++ '"' :: rest) = _
                      rw [show ((0 * 16 + 0) * 16 + c.toNat / 16) * 16 + c.toNat % 16 =
                        c.toNat from by omega]
                    rw [hhex]
                    show (if h : Nat.isValidChar c.toNat then
                        (parseStrAux f (cs.flatMap escChar ++ '"' :: rest)).map
                          fun r => (Char.ofNatAux c.toNat h :: r.1, r.2)
                      else none) = _
                    rw [dif_pos (Or.inl (by omega)), ih rest f (by omega),
                      Option.map_some', ofNatAux_toNat]
                  · have hesc : escChar c = [c] := by
                      rw [escChar, if_neg h1, if_neg h2, if_neg h3, if_neg h4,
                        if_neg h5, if_neg h6, if_neg h7, if_neg h8]
                    rw [List.flatMap_cons, hesc] at hfuel ⊢
                    simp only [List.length_append, List.length_cons] at hfuel
                    obtain ⟨f, rfl⟩ : ∃ f, fuel = f + 1 := ⟨fuel - 1, by omega⟩
                    show parseStrAux (f + 1)
                      (c :: (cs.flatMap escChar ++ '"' :: rest)) = _
                    rw [parseStrAux_cons, if_neg h1, if_neg h2, if_neg h8,
                      ih rest f (by omega)]
                    rfl

/-- Parsing the body of a quoted string recovers exactly the original
characters. -/
theorem parseStr_quote (cs rest : List Char) :
    parseStr (cs.flatMap escChar ++ '"' :: rest) = some (cs, rest) := by
  rw [parseStr]
  exact parseStrAux_escape cs rest _ (by simp [List.length_append])

/- ### Round-trip: whitespace, fuel and shape lemmas -/

/-- A character list consisting only of JSON whitespace. -/
def AllWsL (l : List Char) : Prop := ∀ c ∈ l, isWs c = true

theorem allWsL_nil : AllWsL [] := by intro c hc; cases hc

theorem allWsL_append {a b : List Char} (ha : AllWsL a) (hb : AllWsL b) :
    AllWsL (a ++ b) := by
  intro c hc
  rcases List.mem_append.mp hc with h | h
  · exact ha c h
  · exact hb c h

theorem allWsL_twoSpaces : AllWsL twoSpaces := by
  intro c hc
  simp only [twoSpaces, List.mem_cons, List.not_mem_nil, or_false] at hc
  rcases hc with rfl | rfl <;> rfl

theorem allWsL_cons {c : Char} {l : List Char} (hc : isWs c = true)
    (hl : AllWsL l) : AllWsL (c :: l) := by
  intro d hd
  rcases List.mem_cons.mp hd with h | h
  · rw [h]; exact hc
  · exact hl d h

theorem skipWs_append {ws : List Char} (h : AllWsL ws) (l : List Char) :
    skipWs (ws ++ l) = skipWs l := by
  induction ws with
  | nil => rfl
  | cons c cs ih =>
    have hc := h c (List.mem_cons_self _ _)
    show skipWs (c :: (cs ++ l)) = skipWs l
    rw [skipWs, if_pos hc]
    exact ih (fun d hd => h d (List.mem_cons_of_mem _ hd))

theorem skipWs_cons_false {c : Char} {l : List Char} (h : isWs c = false) :
    skipWs (c :: l) = c :: l := by
  rw [skipWs, if_neg (by rw [h]; exact Bool.false_ne_true)]

mutual

/-- Fuel needed by `parseVal` for this value. -/
def jfuel : JsonValue → Nat
  | JsonValue.null => 1
  | JsonValue.bool _ => 1
  | JsonValue.num _ => 1
  | JsonValue.str _ => 1
  | JsonValue.arr [] => 1
  | JsonValue.arr (x :: xs) => 1 + jfuel x + tfuelArr xs
  | JsonValue.obj [] => 1
  | JsonValue.obj ((_, v) :: ms) => 1 + (1 + jfuel v) + tfuelObj ms

/-- Fuel needed by `parseArrTail` for these remaining elements. -/
def tfuelArr : List JsonValue → Nat
  | [] => 1
  | x :: xs => 1 + jfuel x + tfuelArr xs

/-- Fuel needed by `parseObjTail` for these remaining members. -/
def tfuelObj : List (String × JsonValue) → Nat
  | [] => 1
  | (_, v) :: ms => 1 + (1 + jfuel v) + tfuelObj ms

end

theorem sAux_null (ind : List Char) :
    sAux JsonValue.null ind = ['n', 'u', 'l', 'l'] := by simp [sAux]

theorem sAux_true (ind : List Char) :
    sAux (JsonValue.bool true) ind = ['t', 'r', 'u', 'e'] := by simp [sAux]

theorem sAux_false (ind : List Char) :
    sAux (JsonValue.bool false) ind = ['f', 'a', 'l', 's', 'e'] := by simp [sAux]

theorem sAux_num (n : Int) (ind : List Char) :
    sAux (JsonValue.num n) ind = intToChars n := by simp [sAux]

theorem sAux_str (s : String) (ind : List Char) :
    sAux (JsonValue.str s) ind = quoteChars s.data := by simp [sAux]

theorem sAux_arr_nil (ind : List Char) :
    sAux (JsonValue.arr []) ind = ['[', ']'] := by simp [sAux]

theorem sAux_arr_cons (x : JsonValue) (xs : List JsonValue) (ind : List Char) :
    sAux (JsonValue.arr (x :: xs)) ind =
      '[' :: '\n' :: ((ind ++ twoSpaces) ++ sAux x (ind ++ twoSpaces) ++
        sTail xs (ind ++ twoSpaces) ++ '\n' :: (ind ++ [']'])) := by simp [sAux]

theorem sAux_obj_nil (ind : List Char) :
    sAux (JsonValue.obj []) ind = ['{', '}'] := by simp [sAux]

theorem sAux_obj_cons (k : String) (v : JsonValue)
    (ms : List (String × JsonValue)) (ind : List Char) :
    sAux (JsonValue.obj ((k, v) :: ms)) ind =
      '{' :: '\n' :: ((ind ++ twoSpaces) ++ quoteChars k.data ++
        ':' :: ' ' :: sAux v (ind ++ twoSpaces) ++
        sObjTail ms (ind ++ twoSpaces) ++ '\n' :: (ind ++ ['}'])) := by simp [sAux]

theorem sTail_nil (ind : List Char) : sTail [] ind = [] := by simp [sTail]

theorem sTail_cons (x : JsonValue) (xs : List JsonValue) (ind : List Char) :
    sTail (x :: xs) ind = ',' :: '\n' :: (ind ++ sAux x ind ++ sTail xs ind) := by
  simp [sTail]

theorem sObjTail_nil (ind : List Char) : sObjTail [] ind = [] := by simp [sObjTail]

theorem sObjTail_cons (k : String) (v : JsonValue)
    (ms : List (String × JsonValue)) (ind : List Char) :
    sObjTail ((k, v) :: ms) ind =
      ',' :: '\n' :: (ind ++ quoteChars k.data ++ ':' :: ' ' :: sAux v ind ++
        sObjTail ms ind) := by simp [sObjTail]

theorem parseVal_succ (f : Nat) (cs : List Char) :
    parseVal (f + 1) cs =
      (if (skipWs cs).take 4 = ['n', 'u', 'l', 'l'] then
         some (JsonValue.null, (skipWs cs).drop 4)
       else if (skipWs cs).take 4 = ['t', 'r', 'u', 'e'] then
         some (JsonValue.bool true, (skipWs cs).drop 4)
       else if (skipWs cs).take 5 = ['f', 'a', 'l', 's', 'e'] then
         some (JsonValue.bool false, (skipWs cs).drop 5)
       else if (skipWs cs).head? = some '"' then
         (parseStr (skipWs cs).tail).map fun r => (JsonValue.str (String.mk r.1), r.2)
       else if (skipWs cs).head? = some '-' then
         (parseNat (skipWs cs).tail).map fun r => (JsonValue.num (-(r.1 : Int)), r.2)
       else if (skipWs cs).head? = some '[' then
         if (skipWs (skipWs cs).tail).head? = some ']' then
           some (JsonValue.arr [], (skipWs (skipWs cs).tail).tail)
         else do
           let r1 ← parseVal f (skipWs (skipWs cs).tail)
           let r2 ← parseArrTail f r1.2
           pure (JsonValue.arr (r1.1 :: r2.1), r2.2)
       else if (skipWs cs).head? = some '{' then
         if (skipWs (skipWs cs).tail).head? = some '}' then
           some (JsonValue.obj [], (skipWs (skipWs cs).tail).tail)
         else do
           let r1 ← parseMember f (skipWs (skipWs cs).tail)
           let r2 ← parseObjTail f r1.2
           pure (JsonValue.obj (r1.1 :: r2.1), r2.2)
       else (parseNat (skipWs cs)).map fun r => (JsonValue.num (r.1 : Int), r.2)) := rfl

theorem parseArrTail_succ (f : Nat) (cs : List Char) :
    parseArrTail (f + 1) cs =
      (if (skipWs cs).head? = some ']' then some ([], (skipWs cs).tail)
       else if (skipWs cs).head? = some ',' then do
         let r1 ← parseVal f (skipWs cs).tail
         let r2 ← parseArrTail f r1.2
         pure (r1.1 :: r2.1, r2.2)
       else none) := rfl

theorem parseMember_succ (f : Nat) (cs : List Char) :
    parseMember (f + 1) cs =
      (if (skipWs cs).head? = some '"' then
        match parseStr (skipWs cs).tail with
        | none => none
        | some (k, r1) =>
          if (skipWs r1).head? = some ':' then
            (parseVal f (skipWs r1).tail).map fun r => ((String.mk k, r.1), r.2)
          else none
      else none) := rfl

theorem parseObjTail_succ (f : Nat) (cs : List Char) :
    parseObjTail (f + 1) cs =
      (if (skipWs cs).head? = some '}' then some ([], (skipWs cs).tail)
       else if (skipWs cs).head? = some ',' then do
         let r1 ← parseMember f (skipWs cs).tail
         let r2 ← parseObjTail f r1.2
         pure (r1.1 :: r2.1, r2.2)
       else none) := rfl

theorem parseVal_ws {ws : List Char} (h : AllWsL ws) (f : Nat) (X : List Char) :
    parseVal f (ws ++ X) = parseVal f X := by
  cases f with
  | zero => rfl
  | succ f => rw [parseVal_succ, parseVal_succ, skipWs_append h]

theorem parseMember_ws {ws : List Char} (h : AllWsL ws) (f : Nat) (X : List Char) :
    parseMember f (ws ++ X) = parseMember f X := by
  cases f with
  | zero => rfl
  | succ f => rw [parseMember_succ, parseMember_succ, skipWs_append h]

theorem take_eq_cons_head {s l : List Char} {k : Nat} {c : Char}
    (h : s.take (k + 1) = c :: l) : s.head? = some c := by
  cases s with
  | nil => simp at h
  | cons a t =>
    rw [List.take_succ_cons] at h
    injection h with h1 h2
    rw [List.head?_cons, h1]

/-- A decimal digit character is none of the characters the value
dispatcher tests for. -/
theorem digit_char_not_special {dc : Char} (h : dc.isDigit = true) :
    isWs dc = false ∧ dc ≠ 'n' ∧ dc ≠ 't' ∧ dc ≠ 'f' ∧ dc ≠ '"' ∧
      dc ≠ '-' ∧ dc ≠ '[' ∧ dc ≠ '{' ∧ dc ≠ ']' ∧ dc ≠ '}' ∧ dc ≠ ',' := by
  have h1 : dc ≠ ' ' := fun he => absurd h (by rw [he]; decide)
  have h2 : dc ≠ '\n' := fun he => absurd h (by rw [he]; decide)
  have h3 : dc ≠ '\t' := fun he => absurd h (by rw [he]; decide)
  have h4 : dc ≠ '\r' := fun he => absurd h (by rw [he]; decide)
  refine ⟨by simp [isWs, h1, h2, h3, h4], ?_, ?_, ?_, ?_, ?_, ?_, ?_, ?_, ?_, ?_⟩ <;>
    exact fun he => absurd h (by rw [he]; decide)

theorem natToChars_head (m : Nat) :
    ∃ dc t, natToChars m = dc :: t ∧ dc.isDigit = true := by
  by_cases h : m = 0
  · subst h
    exact ⟨'0', [], rfl, by decide⟩
  · have hne : natToChars m = digitsBE m := by
      rw [natToChars, if_neg h, natToCharsAux_eq_digitsBE]
      simp
    rcases hBE : digitsBE m with _ | ⟨c, L⟩
    · exfalso
      have hnn : Nat.digits 10 m ≠ [] := Nat.digits_ne_nil_iff_ne_zero.mpr h
      rw [digitsBE] at hBE
      simp only [List.reverse_eq_nil_iff, List.map_eq_nil_iff] at hBE
      exact hnn hBE
    · refine ⟨c, L, by rw [hne, hBE], ?_⟩
      have := digitsBE_all_digits m
      rw [hBE] at this
      exact this c (List.mem_cons_self _ _)

/-- Every printed value starts with a non-whitespace character that is
not a closing bracket. -/
theorem sAux_head_shape (v : JsonValue) (ind : List Char) :
    ∃ c t, sAux v ind = c :: t ∧ isWs c = false ∧ c ≠ ']' ∧ c ≠ '}' := by
  cases v with
  | null => exact ⟨'n', _, sAux_null ind, by decide, by decide, by decide⟩
  | bool b =>
    cases b with
    | false => exact ⟨'f', _, sAux_false ind, by decide, by decide, by decide⟩
    | true => exact ⟨'t', _, sAux_true ind, by decide, by decide, by decide⟩
  | num n =>
    cases n with
    | ofNat m =>
      obtain ⟨dc, t, ht, hd⟩ := natToChars_head m
      have hf := digit_char_not_special hd
      exact ⟨dc, t, by rw [sAux_num]; exact ht, hf.1, hf.2.2.2.2.2.2.2.2.1,
        hf.2.2.2.2.2.2.2.2.2.1⟩
    | negSucc m =>
      exact ⟨'-', _, by rw [sAux_num]; rfl, by decide, by decide, by decide⟩
  | str s => exact ⟨'"', _, by rw [sAux_str]; rfl, by decide, by decide, by decide⟩
  | arr es =>
    cases es with
    | nil => exact ⟨'[', _, sAux_arr_nil ind, by decide, by decide, by decide⟩
    | cons x xs => exact ⟨'[', _, sAux_arr_cons x xs ind, by decide, by decide, by decide⟩
  | obj ms =>
    cases ms with
    | nil => exact ⟨'{', _, sAux_obj_nil ind, by decide, by decide, by decide⟩
    | cons m ms =>
      obtain ⟨k, v⟩ := m
      exact ⟨'{', _, sAux_obj_cons k v ms ind, by decide, by decide, by decide⟩

theorem sTail_ndh (xs : List JsonValue) (ind C : List Char) :
    NoDigitHead (sTail xs ind ++ '\n' :: C) := by
  cases xs with
  | nil =>
    rw [sTail_nil, List.nil_append]
    exact noDigitHead_cons (by decide)
  | cons x xs =>
    rw [sTail_cons, List.cons_append]
    exact noDigitHead_cons (by decide)

theorem sObjTail_ndh (ms : List (String × JsonValue)) (ind C : List Char) :
    NoDigitHead (sObjTail ms ind ++ '\n' :: C) := by
  cases ms with
  | nil =>
    rw [sObjTail_nil, List.nil_append]
    exact noDigitHead_cons (by decide)
  | cons m ms =>
    obtain ⟨k, v⟩ := m
    rw [sObjTail_cons, List.cons_append]
    exact noDigitHead_cons (by decide)

theorem head_cons_ne {dc c : Char} {X : List Char} (hne : dc ≠ c) :
    (dc :: X).head? ≠ some c := by
  rw [List.head?_cons]
  intro h
  exact hne (Option.some.inj h)

theorem take_cons_ne {dc c : Char} {X l : List Char} {k : Nat} (hne : dc ≠ c) :
    (dc :: X).take (k + 1) ≠ c :: l := by
  intro h
  exact head_cons_ne hne (take_eq_cons_head h)

theorem jfuel_pos : ∀ v : JsonValue, 1 ≤ jfuel v := by
  intro v
  cases v with
  | null => simp [jfuel]
  | bool b => simp [jfuel]
  | num n => simp [jfuel]
  | str s => simp [jfuel]
  | arr es =>
    cases es with
    | nil => simp [jfuel]
    | cons x xs =>
      simp only [jfuel]
      omega
  | obj ms =>
    cases ms with
    | nil => simp [jfuel]
    | cons m ms =>
      obtain ⟨k, v⟩ := m
      simp only [jfuel]
      omega

theorem tfuelArr_pos : ∀ xs : List JsonValue, 1 ≤ tfuelArr xs := by
  intro xs
  cases xs with
  | nil => simp [tfuelArr]
  | cons x xs =>
    simp only [tfuelArr]
    omega

theorem tfuelObj_pos : ∀ ms : List (String × JsonValue), 1 ≤ tfuelObj ms := by
  intro ms
  cases ms with
  | nil => simp [tfuelObj]
  | cons m ms =>
    obtain ⟨k, v⟩ := m
    simp only [tfuelObj]
    omega

theorem jfuel_arr_cons (x : JsonValue) (xs : List JsonValue) :
    jfuel (JsonValue.arr (x :: xs)) = 1 + jfuel x + tfuelArr xs := by simp [jfuel]

theorem jfuel_obj_cons (k : String) (v : JsonValue) (ms : List (String × JsonValue)) :
    jfuel (JsonValue.obj ((k, v) :: ms)) = 1 + (1 + jfuel v) + tfuelObj ms := by
  simp [jfuel]

theorem tfuelArr_cons (x : JsonValue) (xs : List JsonValue) :
    tfuelArr (x :: xs) = 1 + jfuel x + tfuelArr xs := by simp [tfuelArr]

theorem tfuelObj_cons (k : String) (v : JsonValue) (ms : List (String × JsonValue)) :
    tfuelObj ((k, v) :: ms) = 1 + (1 + jfuel v) + tfuelObj ms := by simp [tfuelObj]

/-- Parsing one rendered object member `"key": value`. -/
theorem parseMember_piece {g : Nat} {k : String} {v : JsonValue} {ind rest : List Char}
    (hrest : NoDigitHead rest)
    (hVal : ∀ (fuel : Nat) (X : List Char), jfuel v ≤ fuel → NoDigitHead X →
      parseVal fuel (sAux v ind ++ X) = some (v, X))
    (hg : 1 + jfuel v ≤ g) :
    parseMember g (quoteChars k.data ++ ':' :: ' ' :: (sAux v ind ++ rest)) =
      some ((k, v), rest) := by
  obtain ⟨g', rfl⟩ : ∃ g', g = g' + 1 := ⟨g - 1, by omega⟩
  have hq : quoteChars k.data ++ ':' :: ' ' :: (sAux v ind ++ rest) =
      '"' :: ((k.data.flatMap escChar ++ ['"']) ++ ':' :: ' ' :: (sAux v ind ++ rest)) := by
    rw [quoteChars]
    simp [List.append_assoc]
  rw [parseMember_succ, hq, skipWs_cons_false (by decide),
    if_pos (by rw [List.head?_cons])]
  have htl : ('"' :: ((k.data.flatMap escChar ++ ['"']) ++
      ':' :: ' ' :: (sAux v ind ++ rest))).tail =
      k.data.flatMap escChar ++ '"' :: (':' :: ' ' :: (sAux v ind ++ rest)) := by
    rw [List.tail_cons, List.append_assoc, List.singleton_append]
  rw [htl, parseStr_quote]
  show (if (skipWs (':' :: ' ' :: (sAux v ind ++ rest))).head? = some ':' then
      (parseVal g' (skipWs (':' :: ' ' :: (sAux v ind ++ rest))).tail).map
        fun r => ((String.mk k.data, r.1), r.2)
    else none) = some ((k, v), rest)
  rw [skipWs_cons_false (by decide), if_pos (by rw [List.head?_cons]),
    List.tail_cons]
  have hsp : (' ' :: (sAux v ind ++ rest)) = [' '] ++ (sAux v ind ++ rest) := rfl
  rw [hsp, parseVal_ws (by intro c hc; rcases List.mem_singleton.mp hc with rfl; rfl),
    hVal g' rest (by omega) hrest, Option.map_some']

theorem skipWs_nl (X : List Char) : skipWs ('\n' :: X) = skipWs X := rfl

/-- The central round trip: parsing the rendering of a value (or of the
rendered element/member tails) recovers it exactly, given enough fuel. -/
theorem roundtrip_all : ∀ n : Nat,
    (∀ (v : JsonValue) (ind rest : List Char) (fuel : Nat),
      jfuel v ≤ n → jfuel v ≤ fuel → AllWsL ind → NoDigitHead rest →
      parseVal fuel (sAux v ind ++ rest) = some (v, rest)) ∧
    (∀ (xs : List JsonValue) (ind0 ind rest : List Char) (fuel : Nat),
      tfuelArr xs ≤ n → tfuelArr xs ≤ fuel → AllWsL ind0 → AllWsL ind →
      parseArrTail fuel (sTail xs ind ++ '\n' :: (ind0 ++ ']' :: rest)) =
        some (xs, rest)) ∧
    (∀ (ms : List (String × JsonValue)) (ind0 ind rest : List Char) (fuel : Nat),
      tfuelObj ms ≤ n → tfuelObj ms ≤ fuel → AllWsL ind0 → AllWsL ind →
      parseObjTail fuel (sObjTail ms ind ++ '\n' :: (ind0 ++ '}' :: rest)) =
        some (ms, rest)) := by
  intro n
  induction n using Nat.strong_induction_on with
  | _ n IH =>
  refine ⟨?_, ?_, ?_⟩
  · intro v ind rest fuel hn hfuel hws hrest
    cases v with
    | null =>
      have h1 : jfuel JsonValue.null = 1 := by simp [jfuel]
      rw [h1] at hfuel
      obtain ⟨f, rfl⟩ : ∃ f, fuel = f + 1 := ⟨fuel - 1, by omega⟩
      rw [sAux_null]
      rfl
    | bool b =>
      have h1 : jfuel (JsonValue.bool b) = 1 := by simp [jfuel]
      rw [h1] at hfuel
      obtain ⟨f, rfl⟩ : ∃ f, fuel = f + 1 := ⟨fuel - 1, by omega⟩
      cases b with
      | false => rw [sAux_false]; rfl
      | true => rw [sAux_true]; rfl
    | num m =>
      have h1 : jfuel (JsonValue.num m) = 1 := by simp [jfuel]
      rw [h1] at hfuel
      obtain ⟨f, rfl⟩ : ∃ f, fuel = f + 1 := ⟨fuel - 1, by omega⟩
      rw [sAux_num]
      cases m with
      | ofNat m =>
        obtain ⟨dc, t, ht, hd⟩ := natToChars_head m
        have hf := digit_char_not_special hd
        rw [show intToChars (Int.ofNat m) = natToChars m from rfl, ht,
          List.cons_append, parseVal_succ, skipWs_cons_false hf.1,
          if_neg (take_cons_ne hf.2.1), if_neg (take_cons_ne hf.2.2.1),
          if_neg (take_cons_ne hf.2.2.2.1), if_neg (head_cons_ne hf.2.2.2.2.1),
          if_neg (head_cons_ne hf.2.2.2.2.2.1),
          if_neg (head_cons_ne hf.2.2.2.2.2.2.1),
          if_neg (head_cons_ne hf.2.2.2.2.2.2.2.1),
          ← List.cons_append, ← ht, parseNat_natToChars m rest hrest,
          Option.map_some']
        rfl
      | negSucc m =>
        rw [show intToChars (Int.negSucc m) = '-' :: natToChars (m + 1) from rfl,
          List.cons_append, parseVal_succ, skipWs_cons_false (by decide),
          if_neg (take_cons_ne (by decide)), if_neg (take_cons_ne (by decide)),
          if_neg (take_cons_ne (by decide)), if_neg (head_cons_ne (by decide)),
          if_pos (show ('-' :: (natToChars (m + 1) ++ rest)).head? = some '-' from
            by rw [List.head?_cons]),
          List.tail_cons, parseNat_natToChars (m + 1) rest hrest, Option.map_some']
        have hneg : (-((m + 1 : Nat) : Int)) = Int.negSucc m := by
          rw [Int.negSucc_eq]
          push_cast
          ring
        rw [hneg]
    | str s =>
      have h1 : jfuel (JsonValue.str s) = 1 := by simp [jfuel]
      rw [h1] at hfuel
      obtain ⟨f, rfl⟩ : ∃ f, fuel = f + 1 := ⟨fuel - 1, by omega⟩
      rw [sAux_str, quoteChars, List.cons_append, parseVal_succ,
        skipWs_cons_false (by decide),
        if_neg (take_cons_ne (by decide)), if_neg (take_cons_ne (by decide)),
        if_neg (take_cons_ne (by decide)),
        if_pos (show ('"' :: ((s.data.flatMap escChar ++ ['"']) ++ rest)).head? =
          some '"' from by rw [List.head?_cons]),
        List.tail_cons,
        show (s.data.flatMap escChar ++ ['"']) ++ rest =
          s.data.flatMap escChar ++ '"' :: rest from
          by rw [List.append_assoc, List.singleton_append],
        parseStr_quote, Option.map_some']
    | arr es =>
      cases es with
      | nil =>
        have h1 : jfuel (JsonValue.arr []) = 1 := by simp [jfuel]
        rw [h1] at hfuel
        obtain ⟨f, rfl⟩ : ∃ f, fuel = f + 1 := ⟨fuel - 1, by omega⟩
        rw [sAux_arr_nil]
        rfl
      | cons x xs =>
        rw [jfuel_arr_cons] at hn hfuel
        have hxp := jfuel_pos x
        have htp := tfuelArr_pos xs
        obtain ⟨f, rfl⟩ : ∃ f, fuel = f + 1 := ⟨fuel - 1, by omega⟩
        rw [sAux_arr_cons]
        have hnorm : ('[' :: '\n' :: ((ind ++ twoSpaces) ++
            sAux x (ind ++ twoSpaces) ++ sTail xs (ind ++ twoSpaces) ++
            '\n' :: (ind ++ [']']))) ++ rest =
            '[' :: ('\n' :: ((ind ++ twoSpaces) ++ (sAux x (ind ++ twoSpaces) ++
              (sTail xs (ind ++ twoSpaces) ++
                '\n' :: (ind ++ ']' :: rest))))) := by
          simp [List.append_assoc]
        rw [hnorm, parseVal_succ, skipWs_cons_false (by decide),
          if_neg (take_cons_ne (by decide)), if_neg (take_cons_ne (by decide)),
          if_neg (take_cons_ne (by decide)), if_neg (head_cons_ne (by decide)),
          if_neg (head_cons_ne (by decide)),
          if_pos (by rw [List.head?_cons]), List.tail_cons]
        obtain ⟨c, t, hct, hcw, hcb1, hcb2⟩ := sAux_head_shape x (ind ++ twoSpaces)
        have hskip : skipWs ('\n' :: ((ind ++ twoSpaces) ++
            (sAux x (ind ++ twoSpaces) ++ (sTail xs (ind ++ twoSpaces) ++
              '\n' :: (ind ++ ']' :: rest))))) =
            sAux x (ind ++ twoSpaces) ++ (sTail xs (ind ++ twoSpaces) ++
              '\n' :: (ind ++ ']' :: rest)) := by
          rw [skipWs_nl, skipWs_append (allWsL_append hws allWsL_twoSpaces),
            hct, List.cons_append, skipWs_cons_false hcw, ← List.cons_append, ← hct]
        rw [hskip, if_neg (by rw [hct, List.cons_append]; exact head_cons_ne hcb1)]
        have hval := (IH (jfuel x) (by omega)).1 x (ind ++ twoSpaces)
          (sTail xs (ind ++ twoSpaces) ++ '\n' :: (ind ++ ']' :: rest)) f
          (le_refl _) (by omega) (allWsL_append hws allWsL_twoSpaces)
          (sTail_ndh xs (ind ++ twoSpaces) (ind ++ ']' :: rest))
        have htail := (IH (tfuelArr xs) (by omega)).2.1 xs ind (ind ++ twoSpaces)
          rest f (le_refl _) (by omega) hws (allWsL_append hws allWsL_twoSpaces)
        rw [hval]
        simp only [Option.bind_eq_bind, Option.some_bind]
        rw [htail]
        rfl
    | obj ms =>
      cases ms with
      | nil =>
        have h1 : jfuel (JsonValue.obj []) = 1 := by simp [jfuel]
        rw [h1] at hfuel
        obtain ⟨f, rfl⟩ : ∃ f, fuel = f + 1 := ⟨fuel - 1, by omega⟩
        rw [sAux_obj_nil]
        rfl
      | cons mem ms =>
        obtain ⟨k, v⟩ := mem
        rw [jfuel_obj_cons] at hn hfuel
        have hvp := jfuel_pos v
        have htp := tfuelObj_pos ms
        obtain ⟨f, rfl⟩ : ∃ f, fuel = f + 1 := ⟨fuel - 1, by omega⟩
        rw [sAux_obj_cons]
        have hnorm : ('{' :: '\n' :: ((ind ++ twoSpaces) ++ quoteChars k.data ++
            ':' :: ' ' :: sAux v (ind ++ twoSpaces) ++
            sObjTail ms (ind ++ twoSpaces) ++ '\n' :: (ind ++ ['}']))) ++ rest =
            '{' :: ('\n' :: ((ind ++ twoSpaces) ++ (quoteChars k.data ++
              ':' :: ' ' :: (sAux v (ind ++ twoSpaces) ++
                (sObjTail ms (ind ++ twoSpaces) ++
                  '\n' :: (ind ++ '}' :: rest)))))) := by
          simp [List.append_assoc]
        rw [hnorm, parseVal_succ, skipWs_cons_false (by decide),
          if_neg (take_cons_ne (by decide)), if_neg (take_cons_ne (by decide)),
          if_neg (take_cons_ne (by decide)), if_neg (head_cons_ne (by decide)),
          if_neg (head_cons_ne (by decide)), if_neg (head_cons_ne (by decide)),
          if_pos (by rw [List.head?_cons]), List.tail_cons]
        have hqshape : quoteChars k.data ++ ':' :: ' ' :: (sAux v (ind ++ twoSpaces) ++
            (sObjTail ms (ind ++ twoSpaces) ++ '\n' :: (ind ++ '}' :: rest))) =
            '"' :: ((k.data.flatMap escChar ++ ['"']) ++
              ':' :: ' ' :: (sAux v (ind ++ twoSpaces) ++
                (sObjTail ms (ind ++ twoSpaces) ++ '\n' :: (ind ++ '}' :: rest)))) := by
          rw [quoteChars]
          simp [List.append_assoc]
        have hskip : skipWs ('\n' :: ((ind ++ twoSpaces) ++ (quoteChars k.data ++
            ':' :: ' ' :: (sAux v (ind ++ twoSpaces) ++
              (sObjTail ms (ind ++ twoSpaces) ++ '\n' :: (ind ++ '}' :: rest)))))) =
            quoteChars k.data ++ ':' :: ' ' :: (sAux v (ind ++ twoSpaces) ++
              (sObjTail ms (ind ++ twoSpaces) ++ '\n' :: (ind ++ '}' :: rest))) := by
          rw [skipWs_nl, skipWs_append (allWsL_append hws allWsL_twoSpaces),
            hqshape, skipWs_cons_false (by decide)]
        rw [hskip, if_neg (by rw [hqshape]; exact head_cons_ne (by decide))]
        have hval : ∀ (fuel : Nat) (X : List Char), jfuel v ≤ fuel → NoDigitHead X →
            parseVal fuel (sAux v (ind ++ twoSpaces) ++ X) = some (v, X) :=
          fun fuel X hfv hX => (IH (jfuel v) (by omega)).1 v (ind ++ twoSpaces) X fuel
            (le_refl _) hfv (allWsL_append hws allWsL_twoSpaces) hX
        have hmem := @parseMember_piece f k v (ind ++ twoSpaces)
          (sObjTail ms (ind ++ twoSpaces) ++ '\n' :: (ind ++ '}' :: rest))
          (sObjTail_ndh ms (ind ++ twoSpaces) (ind ++ '}' :: rest)) hval (by omega)
        rw [hmem]
        simp only [Option.bind_eq_bind, Option.some_bind]
        have htail := (IH (tfuelObj ms) (by omega)).2.2 ms ind (ind ++ twoSpaces)
          rest f (le_refl _) (by omega) hws (allWsL_append hws allWsL_twoSpaces)
        rw [htail]
        rfl
  · intro xs ind0 ind rest fuel hn hfuel hws0 hws
    cases xs with
    | nil =>
      have h1 : tfuelArr ([] : List JsonValue) = 1 := by simp [tfuelArr]
      rw [h1] at hfuel
      obtain ⟨f, rfl⟩ : ∃ f, fuel = f + 1 := ⟨fuel - 1, by omega⟩
      rw [sTail_nil, List.nil_append, parseArrTail_succ, skipWs_nl,
        skipWs_append hws0, skipWs_cons_false (by decide),
        if_pos (by rw [List.head?_cons]), List.tail_cons]
    | cons x xs =>
      rw [tfuelArr_cons] at hn hfuel
      have hxp := jfuel_pos x
      have htp := tfuelArr_pos xs
      obtain ⟨f, rfl⟩ : ∃ f, fuel = f + 1 := ⟨fuel - 1, by omega⟩
      rw [sTail_cons]
      have hnorm : (',' :: '\n' :: (ind ++ sAux x ind ++ sTail xs ind)) ++
          '\n' :: (ind0 ++ ']' :: rest) =
          ',' :: ('\n' :: (ind ++ (sAux x ind ++ (sTail xs ind ++
            '\n' :: (ind0 ++ ']' :: rest))))) := by
        simp [List.append_assoc]
      rw [hnorm, parseArrTail_succ, skipWs_cons_false (by decide),
        if_neg (head_cons_ne (by decide)), if_pos (by rw [List.head?_cons]),
        List.tail_cons]
      have hv : parseVal f ('\n' :: (ind ++ (sAux x ind ++ (sTail xs ind ++
          '\n' :: (ind0 ++ ']' :: rest))))) = some (x, sTail xs ind ++
            '\n' :: (ind0 ++ ']' :: rest)) := by
        rw [show ('\n' :: (ind ++ (sAux x ind ++ (sTail xs ind ++
            '\n' :: (ind0 ++ ']' :: rest))))) = ('\n' :: ind) ++
            (sAux x ind ++ (sTail xs ind ++ '\n' :: (ind0 ++ ']' :: rest))) from
            by rw [List.cons_append]]
        rw [parseVal_ws (allWsL_cons (by decide) hws)]
        exact (IH (jfuel x) (by omega)).1 x ind _ f (le_refl _) (by omega) hws
          (sTail_ndh xs ind (ind0 ++ ']' :: rest))
      rw [hv]
      simp only [Option.bind_eq_bind, Option.some_bind]
      rw [(IH (tfuelArr xs) (by omega)).2.1 xs ind0 ind rest f (le_refl _)
        (by omega) hws0 hws]
      rfl
  · intro ms ind0 ind rest fuel hn hfuel hws0 hws
    cases ms with
    | nil =>
      have h1 : tfuelObj ([] : List (String × JsonValue)) = 1 := by simp [tfuelObj]
      rw [h1] at hfuel
      obtain ⟨f, rfl⟩ : ∃ f, fuel = f + 1 := ⟨fuel - 1, by omega⟩
      rw [sObjTail_nil, List.nil_append, parseObjTail_succ, skipWs_nl,
        skipWs_append hws0, skipWs_cons_false (by decide),
        if_pos (by rw [List.head?_cons]), List.tail_cons]
    | cons mem ms =>
      obtain ⟨k, v⟩ := mem
      rw [tfuelObj_cons] at hn hfuel
      have hvp := jfuel_pos v
      have htp := tfuelObj_pos ms
      obtain ⟨f, rfl⟩ : ∃ f, fuel = f + 1 := ⟨fuel - 1, by omega⟩
      rw [sObjTail_cons]
      have hnorm : (',' :: '\n' :: (ind ++ quoteChars k.data ++
          ':' :: ' ' :: sAux v ind ++ sObjTail ms ind)) ++
          '\n' :: (ind0 ++ '}' :: rest) =
          ',' :: ('\n' :: (ind ++ (quoteChars k.data ++
            ':' :: ' ' :: (sAux v ind ++ (sObjTail ms ind ++
              '\n' :: (ind0 ++ '}' :: rest)))))) := by
        simp [List.append_assoc]
      rw [hnorm, parseObjTail_succ, skipWs_cons_false (by decide),
        if_neg (head_cons_ne (by decide)), if_pos (by rw [List.head?_cons]),
        List.tail_cons]
      have hval : ∀ (fuel : Nat) (X : List Char), jfuel v ≤ fuel → NoDigitHead X →
          parseVal fuel (sAux v ind ++ X) = some (v, X) :=
        fun fuel X hfv hX => (IH (jfuel v) (by omega)).1 v ind X fuel
          (le_refl _) hfv hws hX
      have hm : parseMember f ('\n' :: (ind ++ (quoteChars k.data ++
          ':' :: ' ' :: (sAux v ind ++ (sObjTail ms ind ++
            '\n' :: (ind0 ++ '}' :: rest)))))) =
          some ((k, v), sObjTail ms ind ++ '\n' :: (ind0 ++ '}' :: rest)) := by
        rw [show ('\n' :: (ind ++ (quoteChars k.data ++
            ':' :: ' ' :: (sAux v ind ++ (sObjTail ms ind ++
              '\n' :: (ind0 ++ '}' :: rest)))))) = ('\n' :: ind) ++
            (quoteChars k.data ++ ':' :: ' ' :: (sAux v ind ++ (sObjTail ms ind ++
              '\n' :: (ind0 ++ '}' :: rest)))) from by rw [List.cons_append]]
        rw [parseMember_ws (allWsL_cons (by decide) hws)]
        exact parseMember_piece (sObjTail_ndh ms ind (ind0 ++ '}' :: rest)) hval
          (by omega)
      rw [hm]
      simp only [Option.bind_eq_bind, Option.some_bind]
      rw [(IH (tfuelObj ms) (by omega)).2.2 ms ind0 ind rest f (le_refl _)
        (by omega) hws0 hws]
      rfl

/-- The fuel a value needs is covered by the length of its rendering. -/
theorem fuel_le_len : ∀ n : Nat,
    (∀ (v : JsonValue) (ind : List Char), jfuel v ≤ n →
      jfuel v ≤ (sAux v ind).length + 1) ∧
    (∀ (xs : List JsonValue) (ind : List Char), tfuelArr xs ≤ n →
      tfuelArr xs ≤ (sTail xs ind).length + 1) ∧
    (∀ (ms : List (String × JsonValue)) (ind : List Char), tfuelObj ms ≤ n →
      tfuelObj ms ≤ (sObjTail ms ind).length + 1) := by
  intro n
  induction n using Nat.strong_induction_on with
  | _ n IH =>
  refine ⟨?_, ?_, ?_⟩
  · intro v ind hn
    cases v with
    | null =>
      have h1 : jfuel JsonValue.null = 1 := by simp [jfuel]
      rw [h1]
      omega
    | bool b =>
      have h1 : jfuel (JsonValue.bool b) = 1 := by simp [jfuel]
      rw [h1]
      omega
    | num m =>
      have h1 : jfuel (JsonValue.num m) = 1 := by simp [jfuel]
      rw [h1]
      omega
    | str s =>
      have h1 : jfuel (JsonValue.str s) = 1 := by simp [jfuel]
      rw [h1]
      omega
    | arr es =>
      cases es with
      | nil =>
        have h1 : jfuel (JsonValue.arr []) = 1 := by simp [jfuel]
        rw [h1]
        omega
      | cons x xs =>
        rw [jfuel_arr_cons] at hn ⊢
        have hxp := jfuel_pos x
        have htp := tfuelArr_pos xs
        have ihx := (IH (jfuel x) (by omega)).1 x (ind ++ twoSpaces) (le_refl _)
        have ihxs := (IH (tfuelArr xs) (by omega)).2.1 xs (ind ++ twoSpaces) (le_refl _)
        rw [sAux_arr_cons]
        simp only [List.length_cons, List.length_append]
        omega
    | obj ms =>
      cases ms with
      | nil =>
        have h1 : jfuel (JsonValue.obj []) = 1 := by simp [jfuel]
        rw [h1]
        omega
      | cons mem ms =>
        obtain ⟨k, v⟩ := mem
        rw [jfuel_obj_cons] at hn ⊢
        have hvp := jfuel_pos v
        have htp := tfuelObj_pos ms
        have ihv := (IH (jfuel v) (by omega)).1 v (ind ++ twoSpaces) (le_refl _)
        have ihms := (IH (tfuelObj ms) (by omega)).2.2 ms (ind ++ twoSpaces) (le_refl _)
        rw [sAux_obj_cons]
        simp only [List.length_cons, List.length_append]
        omega
  · intro xs ind hn
    cases xs with
    | nil =>
      have h1 : tfuelArr ([] : List JsonValue) = 1 := by simp [tfuelArr]
      rw [h1]
      omega
    | cons x xs =>
      rw [tfuelArr_cons] at hn ⊢
      have hxp := jfuel_pos x
      have htp := tfuelArr_pos xs
      have ihx := (IH (jfuel x) (by omega)).1 x ind (le_refl _)
      have ihxs := (IH (tfuelArr xs) (by omega)).2.1 xs ind (le_refl _)
      rw [sTail_cons]
      simp only [List.length_cons, List.length_append]
      omega
  · intro ms ind hn
    cases ms with
    | nil =>
      have h1 : tfuelObj ([] : List (String × JsonValue)) = 1 := by simp [tfuelObj]
      rw [h1]
      omega
    | cons mem ms =>
      obtain ⟨k, v⟩ := mem
      rw [tfuelObj_cons] at hn ⊢
      have hvp := jfuel_pos v
      have htp := tfuelObj_pos ms
      have ihv := (IH (jfuel v) (by omega)).1 v ind (le_refl _)
      have ihms := (IH (tfuelObj ms) (by omega)).2.2 ms ind (le_refl _)
      rw [sObjTail_cons]
      simp only [List.length_cons, List.length_append]
      omega

/-- `JSON.parse` is a left inverse of `JSON.stringify(·, null, 2)`. -/
theorem jsonParse_stringify2 (v : JsonValue) :
    jsonParse (jsonStringify2 v) = some v := by
  have hfuel : jfuel v ≤ (sAux v []).length + 1 :=
    (fuel_le_len (jfuel v)).1 v [] (le_refl _)
  have h := (roundtrip_all (jfuel v)).1 v [] [] ((sAux v []).length + 1)
    (le_refl _) hfuel allWsL_nil noDigitHead_nil
  rw [List.append_nil] at h
  show (match parseVal ((jsonStringify2 v).data.length + 1) (jsonStringify2 v).data with
    | some r => if skipWs r.2 = [] then some r.1 else none
    | none => none) = some v
  have hdata : (jsonStringify2 v).data = sAux v [] := rfl
  rw [hdata, h]
  rfl

theorem releaseLock_canon (X : RunState) (p : String) :
    releaseLock X (pathResolve p) =
      ⟨X.locks.erase (pathResolve p), X.files,
        X.events ++ [LEvent.rel (pathResolve p)]⟩ := by
  rw [releaseLock, pathResolve_idem]

theorem lookup_fsSet (files : List (String × String)) (k d : String) :
    List.lookup k (fsSet files k d) = some d := by
  rw [fsSet]
  simp [List.lookup]

/-- C6: the write-then-read round trip.  For every JSON value (nested
structures and empty objects included) and every path whose lock is
free, a successful `writeJSON` followed by `readJSON` of the same path —
with no intervening write — returns exactly the value written. -/
theorem c6_writeJSON_readJSON_roundtrip (st : RunState) (p : String)
    (v : JsonValue) (hfree : pathResolve p ∉ st.locks) :
    ∃ st1 st2,
      writeJSON st p (JsValue.json v) (Except.ok ()) =
        some (Except.ok true, st1) ∧
      readJSON st1 p = some (Except.ok v, st2) := by
  have hfree1 : pathResolve p ∉
      ((insert (pathResolve p) st.locks).erase (pathResolve p)) :=
    Finset.not_mem_erase _ _
  refine ⟨⟨(insert (pathResolve p) st.locks).erase (pathResolve p),
      fsSet st.files (pathResolve p) (jsonStringify2 v),
      (st.events ++ [LEvent.acq (pathResolve p)]) ++ [LEvent.rel (pathResolve p)]⟩,
    ⟨(insert (pathResolve p) ((insert (pathResolve p) st.locks).erase
        (pathResolve p))).erase (pathResolve p),
      fsSet st.files (pathResolve p) (jsonStringify2 v),
      ((((st.events ++ [LEvent.acq (pathResolve p)]) ++
        [LEvent.rel (pathResolve p)]) ++ [LEvent.acq (pathResolve p)]) ++
        [LEvent.rel (pathResolve p)])⟩,
    ?_, ?_⟩
  · simp only [writeJSON, jsonStringifyJS, writeFile, acquireLock, if_neg hfree,
      Option.map_some', releaseLock_canon]
  · simp only [readJSON, readFile, acquireLock, if_neg hfree1, Option.map_some',
      releaseLock_canon, lookup_fsSet, jsonParse_stringify2]

/-- C6 witness: the round trip at a nested value containing an empty
object, on a free path. -/
theorem c6_writeJSON_readJSON_roundtrip_witness :
    pathResolve "/data.json" ∉ (⟨∅, [], []⟩ : RunState).locks ∧
    (∃ st1 st2,
      writeJSON ⟨∅, [], []⟩ "/data.json"
        (JsValue.json (JsonValue.obj
          [("a", JsonValue.arr [JsonValue.num 1, JsonValue.null]),
           ("b", JsonValue.obj [])])) (Except.ok ()) =
        some (Except.ok true, st1) ∧
      readJSON st1 "/data.json" =
        some (Except.ok (JsonValue.obj
          [("a", JsonValue.arr [JsonValue.num 1, JsonValue.null]),
           ("b", JsonValue.obj [])]), st2)) :=
  ⟨by decide, c6_writeJSON_readJSON_roundtrip ⟨∅, [], []⟩ "/data.json"
    (JsonValue.obj [("a", JsonValue.arr [JsonValue.num 1, JsonValue.null]),
      ("b", JsonValue.obj [])]) (by decide)⟩

/- ### Concurrency model: interleaved safe file operations -/

/-- Progress of a one-path operation (read/write/append/stat/delete):
waiting to acquire, performing its filesystem call with the lock held,
or finished (lock released). -/
inductive SingleSt where
  | start
  | inIO
  | done
deriving DecidableEq

/-- Progress of `copyFile`: waiting for the source lock, holding the
source and waiting for the destination lock, copying with both held, or
finished (both released). -/
inductive CopySt where
  | start
  | gotSrc
  | inIO
  | done
deriving DecidableEq

/-- An in-flight safe file operation over its canonical lock key(s). -/
inductive Proc where
  | single (k : String) (s : SingleSt)
  | copy (kS kD : String) (s : CopySt)
deriving DecidableEq

/-- Global configuration: the `fileLocks` table and the operations in
flight on the single event-loop thread. -/
structure Config where
  locks : Finset String
  procs : List Proc
deriving DecidableEq

/-- A safe-file-operation call with its raw path arguments. -/
inductive OpCall where
  | read (p : String)
  | write (p : String)
  | append (p : String)
  | stat (p : String)
  | del (p : String)
  | copy (src dst : String)

/-- Entering a call canonicalizes its arguments into lock keys. -/
def toProc : OpCall → Proc
  | OpCall.read p => Proc.single (pathResolve p) SingleSt.start
  | OpCall.write p => Proc.single (pathResolve p) SingleSt.start
  | OpCall.append p => Proc.single (pathResolve p) SingleSt.start
  | OpCall.stat p => Proc.single (pathResolve p) SingleSt.start
  | OpCall.del p => Proc.single (pathResolve p) SingleSt.start
  | OpCall.copy s d => Proc.copy (pathResolve s) (pathResolve d) CopySt.start

/-- One scheduler step of process `i`.  Acquisition is the atomic
check-and-insert of `acquireLock` (no suspension point between the check
of `fileLocks` and the insertion); a waiting process has no enabled
step, matching a poll that finds the entry still present.  Completing
the filesystem call runs the `finally` release synchronously, deleting
the key(s). -/
def stepAt (c : Config) (i : Nat) : Option Config :=
  match c.procs.get? i with
  | some (Proc.single k SingleSt.start) =>
    if k ∈ c.locks then none
    else some ⟨insert k c.locks, c.procs.set i (Proc.single k SingleSt.inIO)⟩
  | some (Proc.single k SingleSt.inIO) =>
    some ⟨c.locks.erase k, c.procs.set i (Proc.single k SingleSt.done)⟩
  | some (Proc.single _ SingleSt.done) => none
  | some (Proc.copy kS kD CopySt.start) =>
    if kS ∈ c.locks then none
    else some ⟨insert kS c.locks, c.procs.set i (Proc.copy kS kD CopySt.gotSrc)⟩
  | some (Proc.copy kS kD CopySt.gotSrc) =>
    if kD ∈ c.locks then none
    else some ⟨insert kD c.locks, c.procs.set i (Proc.copy kS kD CopySt.inIO)⟩
  | some (Proc.copy kS kD CopySt.inIO) =>
    some ⟨(c.locks.erase kS).erase kD, c.procs.set i (Proc.copy kS kD CopySt.done)⟩
  | some (Proc.copy _ _ CopySt.done) => none
  | none => none

/-- Some process can take a step. -/
def Step (c c' : Config) : Prop := ∃ i, stepAt c i = some c'

/-- Reachability under interleaving. -/
def Reach : Config → Config → Prop := Relation.ReflTransGen Step

/-- Keys whose lock-table entry this process currently owns. -/
def holdsKeys : Proc → List String
  | Proc.single k SingleSt.inIO => [k]
  | Proc.single _ _ => []
  | Proc.copy kS _ CopySt.gotSrc => [kS]
  | Proc.copy kS kD CopySt.inIO => [kS, kD]
  | Proc.copy _ _ _ => []

/-- Keys on which this process is currently executing its underlying
filesystem call. -/
def ioKeys : Proc → List String
  | Proc.single k SingleSt.inIO => [k]
  | Proc.copy kS kD CopySt.inIO => [kS, kD]
  | _ => []

/-- A finished process. -/
def procDone : Proc → Bool
  | Proc.single _ SingleSt.done => true
  | Proc.copy _ _ CopySt.done => true
  | _ => false

/-- Lock-table invariant: every key is owned by at most one process, and
owned keys are present in the table. -/
def LockInv (c : Config) : Prop :=
  (∀ i j pi pj k, c.procs.get? i = some pi → c.procs.get? j = some pj →
    k ∈ holdsKeys pi → k ∈ holdsKeys pj → i = j) ∧
  (∀ i p k, c.procs.get? i = some p → k ∈ holdsKeys p → k ∈ c.locks)

theorem holdsKeys_toProc (op : OpCall) : holdsKeys (toProc op) = [] := by
  cases op <;> rfl

theorem ioKeys_sub_holds (p : Proc) : ∀ k ∈ ioKeys p, k ∈ holdsKeys p := by
  cases p with
  | single k s => cases s <;> simp [ioKeys, holdsKeys]
  | copy kS kD s => cases s <;> simp [ioKeys, holdsKeys]

theorem inv_init (calls : List OpCall) : LockInv ⟨∅, calls.map toProc⟩ := by
  constructor
  · intro i j pi pj k hi hj hik hjk
    exfalso
    rcases List.get?_eq_some.mp hi with ⟨hli, hgi⟩
    have : pi ∈ calls.map toProc := by
      rw [← hgi]; exact List.get_mem _ _ _
    rcases List.mem_map.mp this with ⟨op, hop, rfl⟩
    rw [holdsKeys_toProc] at hik
    cases hik
  · intro i p k hi hk
    exfalso
    rcases List.get?_eq_some.mp hi with ⟨hli, hgi⟩
    have : p ∈ calls.map toProc := by
      rw [← hgi]; exact List.get_mem _ _ _
    rcases List.mem_map.mp this with ⟨op, hop, rfl⟩
    rw [holdsKeys_toProc] at hk
    cases hk

theorem get?_set_cases {α : Type} {l : List α} {i j : Nat} {q r : α}
    (h : (l.set i q).get? j = some r) :
    (j = i ∧ r = q) ∨ (j ≠ i ∧ l.get? j = some r) := by
  by_cases hji : j = i
  · subst hji
    rw [List.get?_set_eq] at h
    rcases hg : l.get? j with _ | old
    · rw [hg] at h; cases h
    · rw [hg] at h
      simp only [Option.map_eq_map, Option.map_some', Option.some.injEq] at h
      exact Or.inl ⟨rfl, h.symm⟩
  · right
    rw [List.get?_set_ne _ _ (fun he => hji he.symm)] at h
    exact ⟨hji, h⟩

/-- Acquiring a free key preserves the lock invariant. -/
theorem inv_step_acquire {c : Config} (hinv : LockInv c) {i : Nat}
    {pOld q : Proc} {kNew : String}
    (hg : c.procs.get? i = some pOld) (hguard : kNew ∉ c.locks)
    (hnew : ∀ key ∈ holdsKeys q, key = kNew ∨ key ∈ holdsKeys pOld) :
    LockInv ⟨insert kNew c.locks, c.procs.set i q⟩ := by
  constructor
  · intro a b pa pb key ha hb hka hkb
    rcases get?_set_cases ha with ⟨ha1, ha2⟩ | ⟨hai, ha'⟩
    · subst ha1
      subst ha2
      rcases get?_set_cases hb with ⟨hb1, hb2⟩ | ⟨hbi, hb'⟩
      · rw [hb1]
      · rcases hnew key hka with rfl | hold
        · exact absurd (hinv.2 b pb key hb' hkb) hguard
        · exact absurd (hinv.1 a b pOld pb key hg hb' hold hkb).symm hbi
    · rcases get?_set_cases hb with ⟨hb1, hb2⟩ | ⟨hbi, hb'⟩
      · subst hb1
        subst hb2
        rcases hnew key hkb with rfl | hold
        · exact absurd (hinv.2 a pa key ha' hka) hguard
        · exact absurd (hinv.1 a b pa pOld key ha' hg hka hold) hai
      · exact hinv.1 a b pa pb key ha' hb' hka hkb
  · intro a pa key ha hk
    rcases get?_set_cases ha with ⟨ha1, ha2⟩ | ⟨hai, ha'⟩
    · subst ha1
      subst ha2
      rcases hnew key hk with rfl | hold
      · exact Finset.mem_insert_self _ _
      · exact Finset.mem_insert_of_mem (hinv.2 a pOld key hg hold)
    · exact Finset.mem_insert_of_mem (hinv.2 a pa key ha' hk)

/-- Releasing all keys a process owns preserves the lock invariant. -/
theorem inv_step_release {c : Config} (hinv : LockInv c) {i : Nat}
    {pOld q : Proc} {L' : Finset String}
    (hg : c.procs.get? i = some pOld) (hq : holdsKeys q = [])
    (hL : ∀ key, key ∈ c.locks → key ∉ holdsKeys pOld → key ∈ L') :
    LockInv ⟨L', c.procs.set i q⟩ := by
  constructor
  · intro a b pa pb key ha hb hka hkb
    rcases get?_set_cases ha with ⟨ha1, ha2⟩ | ⟨hai, ha'⟩
    · subst ha2
      rw [hq] at hka
      cases hka
    rcases get?_set_cases hb with ⟨hb1, hb2⟩ | ⟨hbi, hb'⟩
    · subst hb2
      rw [hq] at hkb
      cases hkb
    exact hinv.1 a b pa pb key ha' hb' hka hkb
  · intro a pa key ha hk
    rcases get?_set_cases ha with ⟨ha1, ha2⟩ | ⟨hai, ha'⟩
    · subst ha2
      rw [hq] at hk
      cases hk
    · refine hL key (hinv.2 a pa key ha' hk) ?_
      intro hold
      exact hai (hinv.1 a i pa pOld key ha' hg hk hold)

theorem inv_step {c c' : Config} (hinv : LockInv c) (hs : Step c c') :
    LockInv c' := by
  obtain ⟨i, hi⟩ := hs
  rcases hg : c.procs.get? i with _ | p
  · simp only [stepAt, hg] at hi
    exact absurd hi (by simp)
  · cases p with
    | single k s =>
      cases s with
      | start =>
        simp only [stepAt, hg] at hi
        by_cases hk : k ∈ c.locks
        · rw [if_pos hk] at hi
          exact absurd hi (by simp)
        · rw [if_neg hk] at hi
          injection hi with hi
          subst hi
          exact inv_step_acquire hinv hg hk
            (by intro key hkey; left; simpa [holdsKeys] using hkey)
      | inIO =>
        simp only [stepAt, hg] at hi
        injection hi with hi
        subst hi
        refine inv_step_release hinv hg rfl ?_
        intro key hkey hnot
        refine Finset.mem_erase.mpr ⟨?_, hkey⟩
        intro he
        exact hnot (by rw [he]; simp [holdsKeys])
      | done =>
        simp only [stepAt, hg] at hi
        exact absurd hi (by simp)
    | copy kS kD s =>
      cases s with
      | start =>
        simp only [stepAt, hg] at hi
        by_cases hk : kS ∈ c.locks
        · rw [if_pos hk] at hi
          exact absurd hi (by simp)
        · rw [if_neg hk] at hi
          injection hi with hi
          subst hi
          exact inv_step_acquire hinv hg hk
            (by intro key hkey; left; simpa [holdsKeys] using hkey)
      | gotSrc =>
        simp only [stepAt, hg] at hi
        by_cases hk : kD ∈ c.locks
        · rw [if_pos hk] at hi
          exact absurd hi (by simp)
        · rw [if_neg hk] at hi
          injection hi with hi
          subst hi
          refine inv_step_acquire hinv hg hk ?_
          intro key hkey
          simp only [holdsKeys, List.mem_cons, List.not_mem_nil, or_false] at hkey
          rcases hkey with rfl | rfl
          · right; simp [holdsKeys]
          · left; rfl
      | inIO =>
        simp only [stepAt, hg] at hi
        injection hi with hi
        subst hi
        refine inv_step_release hinv hg rfl ?_
        intro key hkey hnot
        simp only [holdsKeys, List.mem_cons, List.not_mem_nil, or_false,
          not_or] at hnot
        exact Finset.mem_erase.mpr ⟨hnot.2,
          Finset.mem_erase.mpr ⟨hnot.1, hkey⟩⟩
      | done =>
        simp only [stepAt, hg] at hi
        exact absurd hi (by simp)

theorem inv_reach {c c' : Config} (hinv : LockInv c) (hr : Reach c c') :
    LockInv c' := by
  induction hr with
  | refl => exact hinv
  | tail hab hbc ih => exact inv_step ih hbc

theorem stepAt_copy_start {L : Finset String} {ps : List Proc} {i : Nat}
    {kS kD : String} (hg : ps.get? i = some (Proc.copy kS kD CopySt.start))
    (hfree : kS ∉ L) :
    stepAt ⟨L, ps⟩ i =
      some ⟨insert kS L, ps.set i (Proc.copy kS kD CopySt.gotSrc)⟩ := by
  simp only [stepAt, hg, if_neg hfree]

theorem stepAt_copy_gotSrc_blocked {L : Finset String} {ps : List Proc}
    {i : Nat} {kS kD : String}
    (hg : ps.get? i = some (Proc.copy kS kD CopySt.gotSrc)) (hheld : kD ∈ L) :
    stepAt ⟨L, ps⟩ i = none := by
  simp only [stepAt, hg, if_pos hheld]

theorem stepAt_nil_proc {L : Finset String} {ps : List Proc} {i : Nat}
    (hg : ps.get? i = none) : stepAt ⟨L, ps⟩ i = none := by
  simp only [stepAt, hg]

/-- C1: mutual exclusion of the underlying filesystem calls.  The
scheduler model makes `acquireLock`'s check of `fileLocks` and its
insertion one atomic step (the source has no `await` between the
`while` condition and `fileLocks.set`), and under it, starting from any
set of safe-file-operation calls, every reachable interleaving has at
most one process executing its filesystem call on any given canonical
key: two in-flight I/O calls on the same key are the same process. -/
theorem c1_mutual_exclusion (calls : List OpCall) (c : Config)
    (hr : Reach ⟨∅, calls.map toProc⟩ c)
    (a b : Nat) (pa pb : Proc) (k : String)
    (ha : c.procs.get? a = some pa) (hb : c.procs.get? b = some pb)
    (hak : k ∈ ioKeys pa) (hbk : k ∈ ioKeys pb) : a = b := by
  have hinv := inv_reach (inv_init calls) hr
  exact hinv.1 a b pa pb k ha hb
    (ioKeys_sub_holds pa k hak) (ioKeys_sub_holds pb k hbk)

/-- C1 witness: one write call stepped into its filesystem call; the
theorem applied to that reachable configuration. -/
theorem c1_mutual_exclusion_witness :
    stepAt ⟨∅, [OpCall.write "/a"].map toProc⟩ 0 =
      some ⟨insert (pathResolve "/a") ∅,
        [Proc.single (pathResolve "/a") SingleSt.inIO]⟩ ∧
    (0 : Nat) = 0 := by
  have hstep : stepAt ⟨∅, [OpCall.write "/a"].map toProc⟩ 0 =
      some ⟨insert (pathResolve "/a") ∅,
        [Proc.single (pathResolve "/a") SingleSt.inIO]⟩ := by decide
  refine ⟨hstep, ?_⟩
  exact c1_mutual_exclusion [OpCall.write "/a"]
    ⟨insert (pathResolve "/a") ∅, [Proc.single (pathResolve "/a") SingleSt.inIO]⟩
    (Relation.ReflTransGen.single ⟨0, hstep⟩)
    0 0 (Proc.single (pathResolve "/a") SingleSt.inIO)
    (Proc.single (pathResolve "/a") SingleSt.inIO)
    (pathResolve "/a") (by decide) (by decide) (by decide) (by decide)

/-- C2 counterexample: `copyFile("/a","/b")` interleaved with
`copyFile("/b","/a")` reaches a configuration where each call holds its
source lock and polls forever for the other's — no process has an
enabled step and neither copy is complete.  The source's
source-then-destination order is per-call, not a global order on keys,
so the reversed pair produces a circular wait. -/
theorem c2_counterexample :
    ∃ c : Config,
      Reach ⟨∅, [OpCall.copy "/a" "/b", OpCall.copy "/b" "/a"].map toProc⟩ c ∧
      (∀ i, stepAt c i = none) ∧
      ∃ p ∈ c.procs, procDone p = false := by
  refine ⟨⟨insert (pathResolve "/b") (insert (pathResolve "/a") ∅),
      [Proc.copy (pathResolve "/a") (pathResolve "/b") CopySt.gotSrc,
       Proc.copy (pathResolve "/b") (pathResolve "/a") CopySt.gotSrc]⟩,
    ?_, ?_, ?_⟩
  · have h0 : stepAt ⟨∅, [OpCall.copy "/a" "/b", OpCall.copy "/b" "/a"].map
        toProc⟩ 0 = some ⟨insert (pathResolve "/a") ∅,
        [Proc.copy (pathResolve "/a") (pathResolve "/b") CopySt.gotSrc,
         Proc.copy (pathResolve "/b") (pathResolve "/a") CopySt.start]⟩ := by
      decide
    have h1 : stepAt ⟨insert (pathResolve "/a") ∅,
        [Proc.copy (pathResolve "/a") (pathResolve "/b") CopySt.gotSrc,
         Proc.copy (pathResolve "/b") (pathResolve "/a") CopySt.start]⟩ 1 =
        some ⟨insert (pathResolve "/b") (insert (pathResolve "/a") ∅),
          [Proc.copy (pathResolve "/a") (pathResolve "/b") CopySt.gotSrc,
           Proc.copy (pathResolve "/b") (pathResolve "/a") CopySt.gotSrc]⟩ := by
      decide
    exact Relation.ReflTransGen.tail
      (Relation.ReflTransGen.single ⟨0, h0⟩) ⟨1, h1⟩
  · intro i
    rcases i with _ | _ | n
    · decide
    · decide
    · rfl
  · exact ⟨Proc.copy (pathResolve "/a") (pathResolve "/b") CopySt.gotSrc,
      List.mem_cons_self _ _, rfl⟩

/-- C2 (amended): for every pair of paths with distinct canonical keys,
the reversed concurrent pair `copyFile(A,B)` with `copyFile(B,A)` CAN
deadlock: an interleaving reaches a configuration with no enabled step
in which neither copy has completed.  Source-first acquisition is a
per-call role order, not a fixed global order on keys, so it does not
prevent the circular wait. -/
theorem c2_reversed_copies_can_deadlock (A B : String)
    (hne : pathResolve A ≠ pathResolve B) :
    ∃ c : Config,
      Reach ⟨∅, [OpCall.copy A B, OpCall.copy B A].map toProc⟩ c ∧
      (∀ i, stepAt c i = none) ∧
      ∃ p ∈ c.procs, procDone p = false := by
  have hBfree : pathResolve B ∉ insert (pathResolve A) (∅ : Finset String) := by
    intro h
    rcases Finset.mem_insert.mp h with h | h
    · exact hne h.symm
    · exact absurd h (Finset.not_mem_empty _)
  refine ⟨⟨insert (pathResolve B) (insert (pathResolve A) ∅),
      [Proc.copy (pathResolve A) (pathResolve B) CopySt.gotSrc,
       Proc.copy (pathResolve B) (pathResolve A) CopySt.gotSrc]⟩,
    ?_, ?_, ?_⟩
  · have h0 := @stepAt_copy_start ∅
      ([OpCall.copy A B, OpCall.copy B A].map toProc) 0
      (pathResolve A) (pathResolve B) rfl (Finset.not_mem_empty _)
    have h1 := @stepAt_copy_start (insert (pathResolve A) ∅)
      [Proc.copy (pathResolve A) (pathResolve B) CopySt.gotSrc,
        Proc.copy (pathResolve B) (pathResolve A) CopySt.start] 1
      (pathResolve B) (pathResolve A) rfl hBfree
    exact Relation.ReflTransGen.tail
      (Relation.ReflTransGen.single ⟨0, h0⟩) ⟨1, h1⟩
  · intro i
    rcases i with _ | _ | n
    · exact stepAt_copy_gotSrc_blocked rfl
        (Finset.mem_insert_self _ _)
    · exact stepAt_copy_gotSrc_blocked rfl
        (Finset.mem_insert_of_mem (Finset.mem_insert_self _ _))
    · exact stepAt_nil_proc rfl
  · exact ⟨Proc.copy (pathResolve A) (pathResolve B) CopySt.gotSrc,
      List.mem_cons_self _ _, rfl⟩

/-- C2 witness: the amended theorem at the concrete pair "/a", "/b". -/
theorem c2_reversed_copies_can_deadlock_witness :
    pathResolve "/a" ≠ pathResolve "/b" ∧
    (∃ c : Config,
      Reach ⟨∅, [OpCall.copy "/a" "/b", OpCall.copy "/b" "/a"].map toProc⟩ c ∧
      (∀ i, stepAt c i = none) ∧
      ∃ p ∈ c.procs, procDone p = false) := by
  have hne : pathResolve "/a" ≠ pathResolve "/b" := by decide
  exact ⟨hne, c2_reversed_copies_can_deadlock "/a" "/b" hne⟩

/-- C9: a self-copy never completes.  When the two arguments of
`copyFile` canonicalize to the same key, every reachable configuration
still has the call unfinished with its filesystem copy never started:
after the source acquisition inserts the key, the destination
acquisition polls forever on the entry the same call holds. -/
theorem c9_self_copy_never_completes (A B : String)
    (heq : pathResolve A = pathResolve B) (c : Config)
    (hr : Reach ⟨∅, [toProc (OpCall.copy A B)]⟩ c) :
    ∀ p ∈ c.procs, ioKeys p = [] ∧ procDone p = false := by
  have hchar : c = ⟨∅, [Proc.copy (pathResolve A) (pathResolve A) CopySt.start]⟩ ∨
      c = ⟨insert (pathResolve A) ∅,
        [Proc.copy (pathResolve A) (pathResolve A) CopySt.gotSrc]⟩ := by
    have hinit : (⟨∅, [toProc (OpCall.copy A B)]⟩ : Config) =
        ⟨∅, [Proc.copy (pathResolve A) (pathResolve A) CopySt.start]⟩ := by
      rw [toProc, ← heq]
    rw [hinit] at hr
    induction hr with
    | refl => exact Or.inl rfl
    | tail hab hbc ih =>
      rcases hbc with ⟨i, hi⟩
      rcases ih with rfl | rfl
      · rcases i with _ | n
        · rw [@stepAt_copy_start ∅
            [Proc.copy (pathResolve A) (pathResolve A) CopySt.start] 0
            (pathResolve A) (pathResolve A) rfl (Finset.not_mem_empty _)] at hi
          injection hi with hi
          exact Or.inr hi.symm
        · rw [@stepAt_nil_proc ∅
            [Proc.copy (pathResolve A) (pathResolve A) CopySt.start]
            (n + 1) rfl] at hi
          cases hi
      · rcases i with _ | n
        · rw [@stepAt_copy_gotSrc_blocked (insert (pathResolve A) ∅)
            [Proc.copy (pathResolve A) (pathResolve A) CopySt.gotSrc] 0
            (pathResolve A) (pathResolve A) rfl
            (Finset.mem_insert_self _ _)] at hi
          cases hi
        · rw [@stepAt_nil_proc (insert (pathResolve A) ∅)
            [Proc.copy (pathResolve A) (pathResolve A) CopySt.gotSrc]
            (n + 1) rfl] at hi
          cases hi
  rcases hchar with rfl | rfl
  · intro p hp
    rcases List.mem_singleton.mp hp with rfl
    exact ⟨rfl, rfl⟩
  · intro p hp
    rcases List.mem_singleton.mp hp with rfl
    exact ⟨rfl, rfl⟩

/-- C9 witness: the self-copy at "/s" applied at the initial
configuration itself. -/
theorem c9_self_copy_never_completes_witness :
    pathResolve "/s" = pathResolve "/s" ∧
    ∀ p ∈ (⟨∅, [toProc (OpCall.copy "/s" "/s")]⟩ : Config).procs,
      ioKeys p = [] ∧ procDone p = false :=
  ⟨rfl, c9_self_copy_never_completes "/s" "/s" rfl
    ⟨∅, [toProc (OpCall.copy "/s" "/s")]⟩ Relation.ReflTransGen.refl⟩
